import Mathlib

/-!
Verification of `src/alm/lm_autoprompt.py` (the `Prompter` class of the `alm`
package): a shallow embedding of its seed construction, encoding, perplexity
computation and iterative mask replacement, together with theorems settling
the specification claims.

External collaborators (the `transformers` tokenizer and model, `torch`
tensors) are modelled as an abstract oracle environment `Env`: a record of
functions standing for `tokenizer.encode_plus`, `tokenizer.tokenize`,
`tokenizer.convert_tokens_to_ids`, `tokenizer.convert_tokens_to_string`,
`tokenizer.decode` composed with `Prompter.cleanup_decode`, the model's
top-k logits, and the cross-entropy of the model's prediction at a
position.  Floating point is modelled by exact rationals, with `math.exp`
an abstract monotone map `expQ`.  Python exceptions and failing `assert`
statements are modelled by `Except String`.
-/

/-! ## Substring machinery (Python's `in` on strings, occurrence counting) -/

/-- `leadsWith n h`: the character list `n` is an initial segment of `h`. -/
def leadsWith : List Char → List Char → Bool
  | [], _ => true
  | _ :: _, [] => false
  | a :: as, b :: bs => a = b && leadsWith as bs

/-- `hasSubL n h`: `n` occurs contiguously somewhere in `h` (Python `n in h`). -/
def hasSubL (n : List Char) : List Char → Bool
  | [] => leadsWith n []
  | c :: cs => leadsWith n (c :: cs) || hasSubL n cs

/-- Number of (possibly overlapping) occurrences of `n` in `h`. -/
def subCountL (n : List Char) : List Char → Nat
  | [] => if leadsWith n [] then 1 else 0
  | c :: cs => (if leadsWith n (c :: cs) then 1 else 0) + subCountL n cs

/-- Python `needle in hay` for strings. -/
def strHasSub (needle hay : String) : Bool :=
  hasSubL needle.data hay.data

/-- Occurrence count of `needle` in `hay` at string level. -/
def strSubCount (needle hay : String) : Nat :=
  subCountL needle.data hay.data

/-! ## The oracle environment -/

/-- `nn.CrossEntropyLoss().ignore_index` -/
def PAD_TOKEN_LABEL_ID : Int := -100

/-- Abstract tokenizer / model environment (the `transformers` collaborator).

* `mask` is `tokenizer.mask_token`, `maskId` is `tokenizer.mask_token_id`,
  `padId` is `tokenizer.pad_token_id`, `model_max_length` is
  `tokenizer.model_max_length`.
* `enc s` is `tokenizer.encode_plus(s, max_length=…, truncation=True,
  padding='max_length')['input_ids']`.
* `tokenize`, `convertId`, `toStr` are `tokenizer.tokenize`,
  `convert_tokens_to_ids`, `convert_tokens_to_string`.
* `dec ids` is `cleanup_decode(tokenizer.decode(ids, skip_special_tokens=False))`;
  the two calls are folded into one oracle since both depend only on the id
  list and tokenizer internals.
* `sp_len` is `len(self.sp_token_prefix)`.
* `predId ids p k` / `predVal ids p k` are the index and value of the model's
  `k`-th top prediction at position `p` of input `ids`
  (`logits.topk(topk_per_position, dim=-1)`).
* `ce ids p y` is the cross-entropy loss of the model's prediction at
  position `p` of input `ids` against label `y`.
* `expQ` stands for `math.exp`. -/
structure Env (Q : Type) where
  mask : String
  maskId : Int
  padId : Int
  model_max_length : Nat
  sp_len : Nat
  enc : String → List Int
  tokenize : String → List String
  convertId : String → Int
  toStr : List String → String
  dec : List Int → String
  predId : List Int → Nat → Nat → Int
  predVal : List Int → Nat → Nat → Q
  ce : List Int → Nat → Int → Q
  expQ : Q → Q

variable {Q : Type} [LinearOrder Q] [AddMonoid Q] [Div Q] [NatCast Q]
  [DecidableEq Q]

/-- One output of `encode_plus`: token ids (plus labels in token-wise mode). -/
structure Encode where
  input_ids : List Int
  labels : List Int
deriving DecidableEq, Repr

/-- `list(map(f, l))` where `f` can raise: Python's strict left-to-right map
with exception propagation. -/
def mapEx (f : α → Except String β) : List α → Except String (List β)
  | [] => .ok []
  | a :: as =>
    match f a with
    | .error e => .error e
    | .ok b =>
      match mapEx f as with
      | .error e => .error e
      | .ok bs => .ok (b :: bs)

/-- Exception-propagating sequencing (Python: evaluate the first expression;
a raised exception propagates, otherwise continue with its value). -/
def exBind (x : Except String γ) (f : γ → Except String β) : Except String β :=
  match x with
  | .error e => .error e
  | .ok a => f a

/-! ## Embedded functions of `lm_autoprompt.py` -/

/-- `get_partition` (lm_autoprompt.py:19-21). -/
def get_partition (l : List (List Encode)) : List (Nat × Nat) :=
  let length := l.map List.length
  (List.range length.length).map
    (fun x => ((length.take x).sum, (length.take (x + 1)).sum))

/-- Writes `value` at each `(position, value)` pair of `ps` into `l`
(the `for p, i in zip(label_position, label_id): label[p] = i` loop);
Python raises `IndexError` on an out-of-range position. -/
def setAll (l : List Int) : List (Nat × Int) → Except String (List Int)
  | [] => .ok l
  | (p, i) :: rest =>
    if p < l.length then setAll (l.set p i) rest else .error "IndexError"

/-- The label computation of `input_ids_to_labels` before the causal shift
(lm_autoprompt.py:93-100). -/
def labels_core (padId : Int) (input_ids : List Int)
    (label_position : Option (List Nat)) (label_id : Option (List Int)) :
    Except String (List Int) :=
  match label_position, label_id with
  | none, none =>
    .ok (input_ids.map (fun x => if x = padId then PAD_TOKEN_LABEL_ID else x))
  | some ps, some li =>
    if ps.length = li.length then
      setAll (List.replicate input_ids.length PAD_TOKEN_LABEL_ID) (ps.zip li)
    else .error "assert len(label_position) == len(label_id)"
  | _, _ => .error "TypeError"

/-- `Prompter.input_ids_to_labels` (lm_autoprompt.py:85-103). -/
def input_ids_to_labels (is_causal : Bool) (padId : Int) (input_ids : List Int)
    (label_position : Option (List Nat)) (label_id : Option (List Int)) :
    Except String (List Int) :=
  exBind (labels_core padId input_ids label_position label_id) (fun label =>
    .ok (if is_causal then label.drop 1 ++ [PAD_TOKEN_LABEL_ID] else label))

/-- The inner `encode_with_single_mask_id` of `encode_plus`
(lm_autoprompt.py:193-206). -/
def encode_with_single_mask_id (E : Env Q) (max_length : Nat)
    (token_list : List String) (mask_position : Nat) :
    Except String (Option Encode) :=
  let masked_token_id := E.convertId (token_list.getD mask_position "")
  if masked_token_id = E.maskId then .ok none
  else
    let tl := token_list.set mask_position E.mask
    let tmp_string := E.toStr tl
    let ids := E.enc tmp_string
    if ids.length < max_length then
      exBind (input_ids_to_labels false E.padId ids
          (some [mask_position + E.sp_len]) (some [masked_token_id]))
        (fun labels => .ok (some ⟨ids, labels⟩))
    else .error "exceed max_length"

/-- `Prompter.encode_plus` (lm_autoprompt.py:169-209). -/
def encode_plus (E : Env Q) (max_length : Nat) (is_causal : Bool)
    (token_wise_mask : Bool) (sentence : String) :
    Except String (List Encode) :=
  if is_causal then .error "NotImplementedError: only available with masked LM"
  else if !token_wise_mask then
    if strHasSub E.mask sentence then
      let ids := E.enc sentence
      if ids.length < max_length then .ok [⟨ids, []⟩]
      else .error "exceed max_length"
    else .error "assert mask_token in sentence"
  else
    let token_list := E.tokenize sentence
    let length := min (max_length - E.sp_len) token_list.length
    exBind (mapEx (encode_with_single_mask_id E max_length token_list)
        (List.range length))
      (fun opts => .ok (opts.filterMap id))

/-- Per-row negative log-likelihood of `get_perplexity`: cross-entropy summed
over all positions (ignored-index positions contribute zero loss), divided by
the number of non-ignored labels (lm_autoprompt.py:355-361). -/
def rowNll (E : Env Q) (e : Encode) : Except String Q :=
  let lossSum :=
    ((List.range e.labels.length).map
      (fun p => if e.labels.getD p 0 = PAD_TOKEN_LABEL_ID then 0
                else E.ce e.input_ids p (e.labels.getD p 0))).sum
  let cnt := (e.labels.filter (fun y => y ≠ PAD_TOKEN_LABEL_ID)).length
  if cnt = 0 then .error "ZeroDivisionError" else .ok (lossSum / cnt)

/-- `Prompter.get_perplexity` (lm_autoprompt.py:329-363).  The `DataLoader`
batching (`shuffle=False, drop_last=False`) preserves order and each row's
loss depends only on its own tensors, so the per-batch loop is modelled by a
map over the flattened rows. -/
def get_perplexity (E : Env Q) (max_length : Nat) (is_causal : Bool)
    (sentences : List String) : Except String (List Q) :=
  exBind (mapEx (encode_plus E max_length is_causal true) sentences)
    (fun data =>
    exBind (mapEx (rowNll E) data.flatten) (fun nll =>
      mapEx (fun se : Nat × Nat =>
          if se.2 - se.1 = 0 then .error "ZeroDivisionError"
          else .ok (E.expQ
            (((nll.drop se.1).take (se.2 - se.1)).sum / ((se.2 - se.1 : Nat) : Q))))
        (get_partition data)))

/-- The candidate templates enumerated by `pair_to_seed`'s `best` branch
(lm_autoprompt.py:151-157): for every `pre_n` in `range(max_length - 2)` and
every `mid_n` in `range(1, max_length - 1 - pre_n)`, the space-join of
`pre_n` masks, the head, `mid_n` masks, and the tail. -/
def best_candidates (E : Env Q) (max_length : Nat) (h t : String) : List String :=
  (List.range (max_length - 2)).flatMap (fun pre_n =>
    ((List.range (max_length - 1 - pre_n)).drop 1).map (fun mid_n =>
      String.intercalate " "
        ((List.replicate pre_n E.mask ++ [h])
          ++ (List.replicate mid_n E.mask ++ [t]))))

/-- `Prompter.pair_to_seed` (lm_autoprompt.py:136-167). -/
def pair_to_seed (E : Env Q) (max_length : Nat) (word_pair : List String)
    (n_blank : Nat) ( n_blank_prefix : Nat) (n_blank_suffix : Nat)
    (seed_type : String) : Except String String :=
  if word_pair.length = 2 then
    match word_pair with
    | [h, t] =>
      if seed_type = "middle" then
        .ok (String.intercalate " "
          ([h] ++ List.replicate n_blank E.mask ++ [t]))
      else if seed_type = "whole" then
        .ok (String.intercalate " "
          (List.replicate n_blank_prefix E.mask ++ [h]
            ++ List.replicate n_blank E.mask ++ [t]
            ++ List.replicate n_blank_suffix E.mask))
      else if seed_type = "best" then
        let candidates := best_candidates E max_length h t
        exBind (get_perplexity E max_length false candidates) (fun ppl =>
          match ppl.min? with
          | none => .error "ValueError: min() arg is an empty sequence"
          | some m =>
            match candidates.get? (List.indexOf m ppl) with
            | some best_seed => .ok best_seed
            | none => .error "IndexError")
      else .error ("unknown seed type: " ++ seed_type)
    | _ => .error "assert len(word_pair) == 2"
  else .error "assert len(word_pair) == 2"

/-- The inner `decode_topk` of `replace_single_mask`
(lm_autoprompt.py:293-300): substitute the `k`-th top prediction at
`replace_pos`, decode, and keep the result only if it contains both `hd` and
`tl` as substrings. -/
def decode_topk (E : Env Q) (hd tl : String) (inp : List Int) (replace_pos k : Nat) :
    Option (String × Q) :=
  let inp' := inp.set replace_pos (E.predId inp replace_pos k)
  let decoded := E.dec inp'
  if strHasSub hd decoded && strHasSub tl decoded
  then some (decoded, E.predVal inp replace_pos k) else none

/-- Candidates harvested from one batch row: every masked position of `inp`
crossed with the top `topk_per_position` predictions there
(lm_autoprompt.py:289-306). -/
def rowCandidates (E : Env Q) (hd tl : String) (inp : List Int)
    (topk_per_position : Nat) : List (String × Q) :=
  ((List.range inp.length).filter (fun p => inp.getD p 0 = E.maskId)).flatMap
    (fun p => (List.range topk_per_position).filterMap
      (fun k => decode_topk E hd tl inp p k))

/-- Stable insertion into a descending-by-likelihood list: the new element
goes before the first element whose key is less than or equal to its own, so
earlier elements precede equal-keyed later ones. -/
def insertDesc (x : String × Q) : List (String × Q) → List (String × Q)
  | [] => [x]
  | y :: ys => if y.2 ≤ x.2 then x :: y :: ys else y :: insertDesc x ys

/-- Python's stable `sorted(l, key=lambda x: x[1], reverse=True)`
(lm_autoprompt.py:308), as a structural stable insertion sort. -/
def sortDesc : List (String × Q) → List (String × Q)
  | [] => []
  | x :: xs => insertDesc x (sortDesc xs)

/-- The inner `process_single_sentence` of `replace_single_mask`
(lm_autoprompt.py:284-310): gather candidates over the sentence's rows, sort
by likelihood descending (Python's stable `sorted`, `reverse=True`), keep the
top `topk` decoded strings. -/
def process_single_sentence (E : Env Q) (word_pairs : List (List String))
    (partition : List (Nat × Nat)) (total_input : List (List Int))
    (topk_per_position topk : Nat) (n : Nat) : Except String (List String) :=
  match word_pairs.getD n [] with
  | [hd, tl] =>
    let se := partition.getD n (0, 0)
    let topk_decoded :=
      ((List.range (se.2 - se.1)).map (fun j => se.1 + j)).flatMap
        (fun i => rowCandidates E hd tl (total_input.getD i []) topk_per_position)
    let sorted := sortDesc topk_decoded
    .ok ((sorted.map Prod.fst).take (min topk sorted.length))
  | _ => .error "ValueError: not a pair"

/-- The perplexity-filter selection of `replace_single_mask`
(lm_autoprompt.py:315-319): `sent[ppl.index(min(ppl))]`, raising on an empty
candidate list. -/
def ppl_select (E : Env Q) (max_length : Nat) (is_causal : Bool)
    (sent : List String) : Except String String :=
  exBind (get_perplexity E max_length is_causal sent) (fun ppl =>
    match ppl.min? with
    | none => .error "ValueError: min() arg is an empty sequence"
    | some m =>
      match sent.get? (List.indexOf m ppl) with
      | some best => .ok best
      | none => .error "IndexError")

/-- The greedy selection of `replace_single_mask` without perplexity filtering
(lm_autoprompt.py:321): `x[0]`, raising on an empty candidate list. -/
def first_select (sent : List String) : Except String String :=
  match sent with
  | [] => .error "IndexError: list index out of range"
  | best :: _ => .ok best

/-- `Prompter.replace_single_mask` (lm_autoprompt.py:247-327). -/
def replace_single_mask (E : Env Q) (max_length : Nat) (is_causal : Bool)
    (seed_sentences : List String) (word_pairs : List (List String))
    (topk topk_per_position : Nat) (perplexity_filter : Bool) :
    Except String (List String) :=
  if seed_sentences.length = word_pairs.length then
    exBind (mapEx
        (fun x => encode_plus E max_length is_causal (!strHasSub E.mask x) x)
        seed_sentences) (fun data =>
      let partition := get_partition data
      let total_input := data.flatten.map (fun enc => enc.input_ids)
      if word_pairs.length = partition.length then
        exBind (mapEx
            (process_single_sentence E word_pairs partition total_input
              topk_per_position topk)
            (List.range partition.length)) (fun greedy_filling =>
          if perplexity_filter then
            mapEx (ppl_select E max_length is_causal) greedy_filling
          else
            mapEx first_select greedy_filling)
      else .error "assert len(word_pairs) == len(partition)")
  else .error "assert len(seed_sentences) == len(word_pairs)"

/-- The `while True` fill loop of `replace_mask` (lm_autoprompt.py:232-236).
Python has no fuel parameter; `fuel` bounds the number of iterations of the
unbounded loop so that the embedding is total, and running out of fuel is
modelled as an error.  Each iteration performs one `replace_single_mask`
pass, exits if no sentence contains the mask token any more, and otherwise
records the pass in the edit history. -/
def fill_loop (E : Env Q) (max_length : Nat) (is_causal : Bool)
    (word_pairs : List (List String)) (topk topk_per_position : Nat)
    (perplexity_filter : Bool) :
    Nat → List String → List (List String) →
    Except String (List String × List (List String))
  | 0, _, _ => .error "while True: out of fuel"
  | fuel + 1, seed_sentences, edit =>
    exBind (replace_single_mask E max_length is_causal seed_sentences
        word_pairs topk topk_per_position perplexity_filter) (fun ss =>
      if ss.all (fun i => !strHasSub E.mask i) then .ok (ss, edit)
      else fill_loop E max_length is_causal word_pairs topk topk_per_position
          perplexity_filter fuel ss (edit ++ [ss]))

/-- The `for i in range(n_revision)` revision loop of `replace_mask`
(lm_autoprompt.py:239-241). -/
def rev_loop (E : Env Q) (max_length : Nat) (is_causal : Bool)
    (word_pairs : List (List String)) (topk topk_per_position : Nat)
    (perplexity_filter : Bool) :
    Nat → List String → List (List String) →
    Except String (List String × List (List String))
  | 0, seed_sentences, edit => .ok (seed_sentences, edit)
  | n + 1, seed_sentences, edit =>
    exBind (replace_single_mask E max_length is_causal seed_sentences
        word_pairs topk topk_per_position perplexity_filter) (fun ss =>
      rev_loop E max_length is_causal word_pairs topk topk_per_position
        perplexity_filter n ss (edit ++ [ss]))

/-- Python `list(zip(*rows))`: the `j`-th output is the list of the `j`-th
elements of all the rows, for `j` below the length of the shortest row;
`zip()` of no rows is empty. -/
def zipStar (rows : List (List String)) : List (List String) :=
  match rows with
  | [] => []
  | r0 :: rest =>
    (List.range ((rest.map List.length).foldl min r0.length)).map
      (fun j => (r0 :: rest).map (fun row => row.getD j ""))

/-- `Prompter.replace_mask` (lm_autoprompt.py:211-245), for an input that is
already a list of word pairs (the `if type(word_pairs[0]) is not list` wrap
only normalizes a single bare pair to such a list).  `edit = list(zip(*edit))`
groups the history per word pair. -/
def replace_mask (E : Env Q) (max_length : Nat) (is_causal : Bool) (fuel : Nat)
    (word_pairs : List (List String)) (n_blank n_revision : Nat)
    (topk topk_per_position : Nat) (seed_type : String)
    (perplexity_filter : Bool) ( n_blank_prefix : Nat) (n_blank_suffix : Nat) :
    Except String (List String × List (List String)) :=
  exBind (mapEx
      (fun x => pair_to_seed E max_length x n_blank n_blank_prefix
        n_blank_suffix seed_type)
      word_pairs) (fun seed_sentences =>
    exBind (fill_loop E max_length is_causal word_pairs topk
        topk_per_position perplexity_filter fuel seed_sentences
        [seed_sentences]) (fun r1 =>
      exBind (rev_loop E max_length is_causal word_pairs topk
          topk_per_position perplexity_filter n_revision r1.1 r1.2)
        (fun r2 => .ok (r2.1, zipStar r2.2))))

/-- The state established by `Prompter.__init__` (lm_autoprompt.py:46-83). -/
structure PConf where
  model_name : String
  is_causal : Bool
  max_length : Nat
  sp_len : Nat
deriving DecidableEq, Repr

/-- `Prompter.__init__` (lm_autoprompt.py:46-83).  `'gpt' in model` decides
`is_causal`, which is asserted false before the tokenizer or config is
consulted; `max_length=None` (and the falsy `0`) falls back to the
tokenizer's `model_max_length`, otherwise `model_max_length >= max_length`
is asserted. -/
def prompter_init (E : Env Q) (model : String) (max_length : Option Nat) :
    Except String PConf :=
  let is_causal := strHasSub "gpt" model
  if is_causal then .error "assert not self.is_causal"
  else
    match max_length with
    | some m =>
      if 0 < m then
        if m ≤ E.model_max_length then .ok ⟨model, is_causal, m, E.sp_len⟩
        else .error "assert model_max_length >= max_length"
      else .ok ⟨model, is_causal, E.model_max_length, E.sp_len⟩
    | none => .ok ⟨model, is_causal, E.model_max_length, E.sp_len⟩

/-- `Prompter.load_model` (lm_autoprompt.py:118-134): selects the model class
by `is_causal` and asserts at most one accelerator. -/
def load_model (is_causal : Bool) (n_gpu : Nat) : Except String String :=
  let model_type := if is_causal then "causal_lm" else "masked_lm"
  if n_gpu ≤ 1 then .ok model_type else .error "assert n_gpu <= 1"

/-- `input_ids` as produced by `tokenizer.encode_plus(…, max_length=m,
truncation=True, padding='max_length')` in the pinned library
(`transformers==3.4.0`, setup.py): the raw encoding truncated to
`max_length` and then padded with `padId` up to exactly `max_length`. -/
def lib_encode_v340 (raw : String → List Int) (max_length : Nat) (padId : Int)
    (s : String) : List Int :=
  (raw s).take max_length
    ++ List.replicate (max_length - (raw s).length) padId

/-! ## Generic lemmas about `mapEx` -/

theorem mapEx_ok_iff {α β : Type} {f : α → Except String β} {l : List α}
    {r : List β} :
    mapEx f l = .ok r ↔ List.Forall₂ (fun a b => f a = .ok b) l r := by
  induction l generalizing r with
  | nil =>
    simp only [mapEx, List.forall₂_nil_left_iff]
    constructor
    · intro h; cases h; rfl
    · intro h; cases h; rfl
  | cons a as ih =>
    simp only [mapEx]
    cases hfa : f a with
    | error e =>
      simp only [List.forall₂_cons_left_iff]
      constructor
      · intro h; cases h
      · rintro ⟨b, u, hb, _, rfl⟩; rw [hfa] at hb; cases hb
    | ok b =>
      cases hrest : mapEx f as with
      | error e =>
        simp only [List.forall₂_cons_left_iff]
        constructor
        · intro h; cases h
        · rintro ⟨b', u, hb, hu, rfl⟩
          rw [← ih] at hu; rw [hrest] at hu; cases hu
      | ok bs =>
        constructor
        · intro h; cases h
          exact List.forall₂_cons.2 ⟨hfa, ih.1 hrest⟩
        · intro h
          rcases List.forall₂_cons_left_iff.1 h with ⟨b', u, hb, hu, rfl⟩
          rw [hfa] at hb; cases hb
          rw [← ih] at hu; rw [hrest] at hu; cases hu
          rfl

theorem mapEx_ok_length {α β : Type} {f : α → Except String β} {l : List α}
    {r : List β} (h : mapEx f l = .ok r) : r.length = l.length :=
  (List.Forall₂.length_eq (mapEx_ok_iff.1 h)).symm

theorem mapEx_ok_getElem {α β : Type} {f : α → Except String β} {l : List α}
    {r : List β} (dα : α) (dβ : β) (h : mapEx f l = .ok r) (i : Nat)
    (hi : i < l.length) :
    f (l.getD i dα) = .ok (r.getD i dβ) := by
  have h2 := List.forall₂_iff_get.1 (mapEx_ok_iff.1 h)
  have hlen : l.length = r.length := h2.1
  have hi' : i < r.length := hlen ▸ hi
  have := h2.2 i hi hi'
  simpa [List.getD_eq_getElem?_getD, List.getElem?_eq_getElem, hi, hi',
    List.get_eq_getElem] using this

theorem mapEx_ok_of_forall {α β : Type} {f : α → Except String β} {l : List α}
    (h : ∀ a ∈ l, ∃ b, f a = .ok b) : ∃ r, mapEx f l = .ok r := by
  induction l with
  | nil => exact ⟨[], rfl⟩
  | cons a as ih =>
    rcases h a (List.mem_cons_self a as) with ⟨b, hb⟩
    rcases ih (fun x hx => h x (List.mem_cons_of_mem a hx)) with ⟨r, hr⟩
    exact ⟨b :: r, by simp [mapEx, hb, hr]⟩

theorem mapEx_ok_mem {α β : Type} {f : α → Except String β} {l : List α}
    {r : List β} (h : mapEx f l = .ok r) {b : β} (hb : b ∈ r) :
    ∃ a ∈ l, f a = .ok b := by
  induction l generalizing r with
  | nil =>
    simp only [mapEx] at h; cases h; cases hb
  | cons a as ih =>
    simp only [mapEx] at h
    cases hfa : f a with
    | error e => rw [hfa] at h; cases h
    | ok b' =>
      rw [hfa] at h
      cases hrest : mapEx f as with
      | error e => rw [hrest] at h; cases h
      | ok bs =>
        rw [hrest] at h; cases h
        rcases List.mem_cons.1 hb with rfl | hmem
        · exact ⟨a, List.mem_cons_self a as, hfa⟩
        · rcases ih hrest hmem with ⟨x, hx, hfx⟩
          exact ⟨x, List.mem_cons_of_mem a hx, hfx⟩

/-! ## Lemmas about the substring machinery -/

theorem leadsWith_append_self (n r : List Char) :
    leadsWith n (n ++ r) = true := by
  induction n with
  | nil => rfl
  | cons a as ih => simp [leadsWith, ih]

theorem leadsWith_length_le {n h : List Char} (hl : leadsWith n h = true) :
    n.length ≤ h.length := by
  induction n generalizing h with
  | nil => simp
  | cons a as ih =>
    cases h with
    | nil => simp [leadsWith] at hl
    | cons b bs =>
      simp only [leadsWith, Bool.and_eq_true] at hl
      simpa using ih hl.2

theorem hasSubL_of_leadsWith {n h : List Char} (hl : leadsWith n h = true) :
    hasSubL n h = true := by
  cases h with
  | nil => simpa [hasSubL] using hl
  | cons c cs => simp [hasSubL, hl]

theorem hasSubL_append_right {n b : List Char} (a : List Char)
    (hb : hasSubL n b = true) : hasSubL n (a ++ b) = true := by
  induction a with
  | nil => simpa
  | cons c cs ih => simp [hasSubL, ih]

theorem hasSubL_iff_subCountL {n h : List Char} :
    hasSubL n h = true ↔ 0 < subCountL n h := by
  induction h with
  | nil =>
    simp only [hasSubL, subCountL]
    by_cases hl : leadsWith n [] = true <;> simp [hl]
  | cons c cs ih =>
    simp only [hasSubL, subCountL, Bool.or_eq_true]
    by_cases hl : leadsWith n (c :: cs) = true <;> simp [hl, ih]

theorem leadsWith_no_space {n : List Char} (hn : ' ' ∉ n) (xs b : List Char) :
    leadsWith n (xs ++ ' ' :: b) = leadsWith n xs := by
  induction n generalizing xs with
  | nil => rfl
  | cons a as ih =>
    cases xs with
    | nil =>
      have ha : a ≠ ' ' := fun h => hn (h ▸ List.mem_cons_self a as)
      simp [leadsWith, ha]
    | cons x xs' =>
      show (decide (a = x) && leadsWith as (xs' ++ ' ' :: b))
        = (decide (a = x) && leadsWith as xs')
      rw [ih (fun h => hn (List.mem_cons_of_mem a h)) xs']

theorem subCountL_append_space {n : List Char} (hn : ' ' ∉ n) (hne : n ≠ [])
    (a b : List Char) :
    subCountL n (a ++ ' ' :: b) = subCountL n a + subCountL n b := by
  induction a with
  | nil =>
    rcases n with _ | ⟨c, cs⟩
    · exact absurd rfl hne
    · have hc : c ≠ ' ' := fun h => hn (h ▸ List.mem_cons_self c cs)
      simp [subCountL, leadsWith, fun h => hc h]
  | cons c cs ih =>
    have h1 : leadsWith n ((c :: cs) ++ ' ' :: b) = leadsWith n (c :: cs) :=
      leadsWith_no_space hn (c :: cs) b
    show (if leadsWith n ((c :: cs) ++ ' ' :: b) = true then 1 else 0)
        + subCountL n (cs ++ ' ' :: b)
      = (if leadsWith n (c :: cs) = true then 1 else 0) + subCountL n cs
        + subCountL n b
    rw [h1, ih]
    omega

theorem subCountL_eq_zero_of_lt {n h : List Char} (hl : h.length < n.length) :
    subCountL n h = 0 := by
  induction h with
  | nil =>
    have h0 : ¬leadsWith n [] = true := by
      intro hc
      have h2 := leadsWith_length_le hc
      simp only [List.length_nil] at h2 hl
      omega
    simp [subCountL, h0]
  | cons c cs ih =>
    have h1 : ¬leadsWith n (c :: cs) = true := by
      intro hc
      have h2 := leadsWith_length_le hc
      omega
    have h3 : cs.length < n.length := by
      simp only [List.length_cons] at hl
      omega
    simp [subCountL, h1, ih h3]

theorem subCountL_self {n : List Char} (hne : n ≠ []) : subCountL n n = 1 := by
  rcases n with _ | ⟨c, cs⟩
  · exact absurd rfl hne
  · have h1 : leadsWith (c :: cs) (c :: cs) = true := by
      simpa using leadsWith_append_self (c :: cs) []
    have h2 : subCountL (c :: cs) cs = 0 :=
      subCountL_eq_zero_of_lt (by simp)
    simp [subCountL, h1, h2]

theorem subCountL_eq_zero_of_not_hasSub {n h : List Char}
    (hh : hasSubL n h = false) : subCountL n h = 0 := by
  by_contra hc
  have : hasSubL n h = true := hasSubL_iff_subCountL.2 (Nat.pos_of_ne_zero hc)
  rw [this] at hh; cases hh

/-! ## `String.intercalate` at the character level -/

deriving instance DecidableEq for Except

theorem intercalate_go_data (s : String) (as : List String) (acc : String) :
    (String.intercalate.go acc s as).data
      = acc.data ++ as.flatMap (fun a => s.data ++ a.data) := by
  induction as generalizing acc with
  | nil => simp [String.intercalate.go]
  | cons a as ih =>
    show (String.intercalate.go (acc ++ s ++ a) s as).data = _
    rw [ih]
    simp [String.data_append]

theorem intercalate_data (s : String) (a : String) (as : List String) :
    (String.intercalate s (a :: as)).data
      = a.data ++ as.flatMap (fun x => s.data ++ x.data) := by
  show (String.intercalate.go a s as).data = _
  rw [intercalate_go_data]

theorem hasSubL_sandwich (n A B : List Char) :
    hasSubL n (A ++ n ++ B) = true := by
  rw [List.append_assoc]
  exact hasSubL_append_right A
    (hasSubL_of_leadsWith (leadsWith_append_self n B))

theorem intercalate_data_decomp {x : String} {parts : List String}
    (hx : x ∈ parts) (s : String) :
    ∃ A B, (String.intercalate s parts).data = A ++ x.data ++ B := by
  rcases List.append_of_mem hx with ⟨l1, l2, rfl⟩
  cases l1 with
  | nil =>
    refine ⟨[], l2.flatMap (fun a => s.data ++ a.data), ?_⟩
    simp [intercalate_data]
  | cons q l1' =>
    refine ⟨q.data ++ (l1'.flatMap (fun a => s.data ++ a.data)) ++ s.data,
      l2.flatMap (fun a => s.data ++ a.data), ?_⟩
    rw [List.cons_append, intercalate_data]
    simp [List.flatMap_append, List.append_assoc]

theorem strHasSub_intercalate {x : String} {parts : List String}
    (hx : x ∈ parts) (s : String) :
    strHasSub x (String.intercalate s parts) = true := by
  rcases intercalate_data_decomp hx s with ⟨A, B, hAB⟩
  unfold strHasSub
  rw [hAB]
  exact hasSubL_sandwich x.data A B

theorem strSubCount_intercalate {m : String} (hm : ' ' ∉ m.data)
    (hne : m.data ≠ []) (parts : List String) (hp : parts ≠ []) :
    strSubCount m (String.intercalate " " parts)
      = (parts.map (strSubCount m)).sum := by
  induction parts with
  | nil => exact absurd rfl hp
  | cons p ps ih =>
    cases ps with
    | nil =>
      unfold strSubCount
      simp [intercalate_data]
    | cons q rest =>
      have hq : (String.intercalate " " (q :: rest)).data
          = q.data ++ rest.flatMap (fun x => (" " : String).data ++ x.data) :=
        intercalate_data " " q rest
      have hstep : (String.intercalate " " (p :: q :: rest)).data
          = p.data ++ ' ' :: (String.intercalate " " (q :: rest)).data := by
        rw [intercalate_data, hq]
        simp
      unfold strSubCount at *
      rw [hstep, subCountL_append_space hm hne, ih (by simp)]
      simp

/-! ## Concrete environments used for witnesses -/

/-- A small concrete environment: mask token `"M"` with id `9`, every other
token id `7`, constant model oracles.  `enc` is coherent with the mask count
of the sentence, `dec` renders the mask ids back as `M`s after a prefix
containing the pair `"a"`, `"b"`. -/
def toyEnv : Env Nat where
  mask := "M"
  maskId := 9
  padId := 0
  model_max_length := 100
  sp_len := 0
  enc := fun s => List.replicate (strSubCount "M" s) 9 ++ [7]
  tokenize := fun _ => ["w"]
  convertId := fun t => if t = "M" then 9 else 7
  toStr := fun ts => String.intercalate " " ts
  dec := fun ids => "a b " ++ String.mk (List.replicate (ids.count 9) 'M')
  predId := fun _ _ _ => 7
  predVal := fun _ _ _ => 1
  ce := fun _ _ _ => 1
  expQ := id

/-- `toyEnv` with the RoBERTa-style mask token literal. -/
def toyEnvRoberta : Env Nat :=
  { toyEnv with mask := "<mask>" }

/-- `toyEnv` whose `enc` follows the pinned-library truncation/padding
semantics (`transformers==3.4.0`, `padding='max_length'`) at `max_length = 8`. -/
def toyEnv340 : Env Nat :=
  { toyEnv with enc := lib_encode_v340 toyEnv.enc 8 0 }

/-- A toy environment whose decoder never contains the pair words, so the
head/tail substring filter rejects every candidate. -/
def toyEnvReject : Env Nat :=
  { toyEnv with dec := fun _ => "z" }

theorem lib_encode_v340_length (raw : String → List Int) (max_length : Nat)
    (padId : Int) (s : String) :
    (lib_encode_v340 raw max_length padId s).length = max_length := by
  simp only [lib_encode_v340, List.length_append, List.length_take,
    List.length_replicate]
  omega

/-! ## Claim C7: `pair_to_seed` with `seed_type='middle'` -/

/-- **C7**: `pair_to_seed(['a','b'], seed_type='middle', n_blank=3)` returns
the head, three mask tokens and the tail joined by single spaces
(`"a <mask> <mask> <mask> b"` for the RoBERTa mask literal), and in general
the `middle` seed is the space-join of the head, `n_blank` mask tokens, and
the tail. -/
theorem C7_pair_to_seed_middle :
    (∀ (E : Env Q) (max_length : Nat) ( n_blank_prefix n_blank_suffix : Nat),
      E.mask = "<mask>" →
      pair_to_seed E max_length ["a", "b"] 3 n_blank_prefix n_blank_suffix
          "middle"
        = .ok "a <mask> <mask> <mask> b")
    ∧ ∀ (E : Env Q) (max_length n nbp nbs : Nat) (h t : String),
      pair_to_seed E max_length [h, t] n nbp nbs "middle"
        = .ok (String.intercalate " " ([h] ++ List.replicate n E.mask ++ [t])) := by
  constructor
  · intro E max_length nbp nbs hmask
    show Except.ok (String.intercalate " "
        (["a"] ++ List.replicate 3 E.mask ++ ["b"])) = _
    rw [hmask]
    decide
  · intro E max_length n nbp nbs h t
    rfl

/-- Witness for C7 at the concrete RoBERTa-style environment. -/
theorem C7_pair_to_seed_middle_witness :
    pair_to_seed toyEnvRoberta 24 ["a", "b"] 3 2 2 "middle"
      = .ok "a <mask> <mask> <mask> b" :=
  C7_pair_to_seed_middle.1 toyEnvRoberta 24 2 2 rfl

/-! ## Claim C3: the `'exceed max_length'` assertion of `encode_plus` -/

/-- **C3** (refuted, code bug): under the pinned library's
`padding='max_length'` semantics, `encode_plus` pads `input_ids` to exactly
`max_length`, so the `len(input_ids) < max_length` assertion fires for every
masked sentence, even one whose raw encoding fits well within `max_length` —
not only when the sentence exceeds the maximum sequence length. -/
theorem C3_encode_plus_always_asserts (E : Env Q) (raw : String → List Int)
    (max_length : Nat) (padId : Int) (s : String)
    (henc : E.enc = lib_encode_v340 raw max_length padId)
    (hmask : strHasSub E.mask s = true) :
    encode_plus E max_length false false s = .error "exceed max_length" := by
  have hlen : ¬(E.enc s).length < max_length := by
    rw [henc, lib_encode_v340_length]
    omega
  simp [encode_plus, hmask, hlen]

/-- Witness for C3: the sentence `"a M b"` whose raw encoding (length 3)
fits strictly within `max_length = 8`, yet `encode_plus` still raises
`'exceed max_length'`. -/
theorem C3_encode_plus_always_asserts_witness :
    (toyEnv.enc "a M b").length < 8
    ∧ encode_plus toyEnv340 8 false false "a M b"
        = .error "exceed max_length" :=
  ⟨by decide, C3_encode_plus_always_asserts toyEnv340 toyEnv.enc 8 0 "a M b"
    rfl (by decide)⟩

/-! ## Claim C10: causal models are rejected by the constructor -/

/-- **C10**: a model name containing `'gpt'` makes the constructor fail with
the `assert not self.is_causal` assertion independently of the tokenizer
environment (the assertion precedes any tokenizer access), and every
successfully constructed `Prompter` has `is_causal = False`, so `load_model`
selects the masked-LM class and `input_ids_to_labels` never performs the
causal label shift. -/
theorem C10_causal_unreachable :
    (∀ (E : Env Q) (model : String) (max_length : Option Nat),
      strHasSub "gpt" model = true →
      prompter_init E model max_length = .error "assert not self.is_causal")
    ∧ ∀ (E : Env Q) (model : String) (max_length : Option Nat) (c : PConf),
      prompter_init E model max_length = .ok c →
      c.is_causal = false
      ∧ (∀ n_gpu : Nat, n_gpu ≤ 1 →
          load_model c.is_causal n_gpu = .ok "masked_lm")
      ∧ ∀ (padId : Int) (ids : List Int) (lp : Option (List Nat))
          (li : Option (List Int)),
          input_ids_to_labels c.is_causal padId ids lp li
            = labels_core padId ids lp li := by
  constructor
  · intro E model max_length h
    simp [prompter_init, h]
  · intro E model max_length c hok
    have hc : c.is_causal = false := by
      by_cases h : strHasSub "gpt" model = true
      · simp [prompter_init, h] at hok
      · simp only [prompter_init, h, Bool.false_eq_true, if_false] at hok
        rcases max_length with _ | m
        · cases hok; simpa using h
        · by_cases h0 : 0 < m
          · by_cases h1 : m ≤ E.model_max_length
            · simp [h0, h1] at hok; cases hok; simpa using h
            · simp [h0, h1] at hok
          · simp [h0] at hok; cases hok; simpa using h
    refine ⟨hc, ?_, ?_⟩
    · intro n_gpu hgpu
      simp [load_model, hc, hgpu]
    · intro padId ids lp li
      unfold input_ids_to_labels
      cases h : labels_core padId ids lp li <;> simp [exBind, h, hc]

/-- Witness for C10: `"gpt2"` is rejected before the tokenizer is touched;
`"roberta-base"` constructs a non-causal state for which `load_model` picks
the masked LM. -/
theorem C10_causal_unreachable_witness :
    prompter_init toyEnv "gpt2" none = .error "assert not self.is_causal"
    ∧ load_model (PConf.mk "roberta-base" false 100 0).is_causal 1
        = .ok "masked_lm" :=
  ⟨C10_causal_unreachable.1 toyEnv "gpt2" none (by decide),
    (C10_causal_unreachable.2 toyEnv "roberta-base" none
      (PConf.mk "roberta-base" false 100 0) (by decide)).2.1 1 (by decide)⟩

/-! ## Inversion and slicing lemmas -/

theorem exBind_ok_inv {γ β : Type} {x : Except String γ}
    {f : γ → Except String β} {b : β} (h : exBind x f = .ok b) :
    ∃ a, x = .ok a ∧ f a = .ok b := by
  cases x with
  | error e => simp [exBind] at h
  | ok a => exact ⟨a, rfl, h⟩

theorem getD_of_lt {α : Type} (l : List α) (n : Nat) (d : α)
    (h : n < l.length) : l.getD n d = l[n] := by
  rw [List.getD_eq_getElem?_getD, List.getElem?_eq_getElem h]
  rfl

theorem range_getD {m i : Nat} (h : i < m) : (List.range m).getD i 0 = i := by
  rw [getD_of_lt _ _ _ (by simpa using h)]
  simp

theorem get_partition_length (data : List (List Encode)) :
    (get_partition data).length = data.length := by
  simp [get_partition]

theorem get_partition_getD (data : List (List Encode)) (n : Nat)
    (h : n < data.length) :
    (get_partition data).getD n (0, 0)
      = (((data.map List.length).take n).sum,
         ((data.map List.length).take (n + 1)).sum) := by
  unfold get_partition
  rw [getD_of_lt _ _ _ (by simpa using h)]
  rw [List.getElem_map, List.getElem_range]

theorem sum_take_len_succ (data : List (List Encode)) (n : Nat)
    (h : n < data.length) :
    ((data.map List.length).take (n + 1)).sum
      = ((data.map List.length).take n).sum + (data.getD n []).length := by
  have h' : n < (data.map List.length).length := by simpa using h
  rw [List.sum_take_succ _ n h']
  congr 1
  rw [List.getElem_map, getD_of_lt _ _ _ h]

theorem flatten_drop_sum {α : Type} (data : List (List α)) (n : Nat) :
    data.flatten.drop (((data.map List.length).take n).sum)
      = (data.drop n).flatten := by
  induction n generalizing data with
  | zero => simp
  | succ n ih =>
    cases data with
    | nil => simp
    | cons d ds =>
      have h1 : ((List.map List.length (d :: ds)).take (n + 1)).sum
          = d.length + (((ds.map List.length).take n).sum) := by
        simp
      rw [h1, List.flatten_cons, List.drop_append, ih ds]
      rfl

theorem flatten_getD {α : Type} (data : List (List α)) (n j : Nat) (d : α)
    (hn : n < data.length) (hj : j < (data.getD n []).length) :
    data.flatten.getD (((data.map List.length).take n).sum + j) d
      = (data.getD n []).getD j d := by
  have h1 : data.flatten.getD (((data.map List.length).take n).sum + j) d
      = (data.flatten.drop (((data.map List.length).take n).sum)).getD j d := by
    rw [List.getD_eq_getElem?_getD, List.getD_eq_getElem?_getD,
      List.getElem?_drop]
  rw [h1, flatten_drop_sum]
  have h2 : data.drop n = (data.getD n []) :: data.drop (n + 1) := by
    rw [List.drop_eq_getElem_cons hn, getD_of_lt _ _ _ hn]
  rw [h2, List.flatten_cons]
  rw [List.getD_eq_getElem?_getD, List.getElem?_append_left hj,
    ← List.getD_eq_getElem?_getD]

/-! ## Selection lemmas: the chosen edit always comes from the filtered
candidate list -/

theorem ppl_select_mem {E : Env Q} {ml : Nat} {ic : Bool} {sent : List String}
    {b : String} (h : ppl_select E ml ic sent = .ok b) : b ∈ sent := by
  unfold ppl_select at h
  rcases exBind_ok_inv h with ⟨ppl, _, h2⟩
  rcases hmin : ppl.min? with _ | m <;> rw [hmin] at h2
  · simp at h2
  · have h3 : (match sent.get? (List.indexOf m ppl) with
        | some best => (Except.ok best : Except String String)
        | none => Except.error "IndexError") = Except.ok b := h2
    rcases hget : sent.get? (List.indexOf m ppl) with _ | best <;>
      rw [hget] at h3
    · simp at h3
    · cases h3
      exact List.get?_mem hget

theorem first_select_mem {sent : List String} {b : String}
    (h : first_select sent = .ok b) : b ∈ sent := by
  cases sent with
  | nil => simp [first_select] at h
  | cons x xs =>
    have hx : (Except.ok x : Except String String) = .ok b := h
    cases hx
    exact List.mem_cons_self _ _

theorem decode_topk_some {E : Env Q} {hd tl : String} {inp : List Int}
    {p k : Nat} {x : String × Q} (h : decode_topk E hd tl inp p k = some x) :
    strHasSub hd x.1 = true ∧ strHasSub tl x.1 = true := by
  unfold decode_topk at h
  by_cases hc : (strHasSub hd (E.dec (inp.set p (E.predId inp p k)))
      && strHasSub tl (E.dec (inp.set p (E.predId inp p k)))) = true
  · rw [if_pos hc] at h
    cases h
    simpa [Bool.and_eq_true] using hc
  · rw [if_neg hc] at h
    cases h

theorem rowCandidates_sub {E : Env Q} {hd tl : String} {inp : List Int}
    {tpp : Nat} {x : String × Q} (hx : x ∈ rowCandidates E hd tl inp tpp) :
    strHasSub hd x.1 = true ∧ strHasSub tl x.1 = true := by
  unfold rowCandidates at hx
  rcases List.mem_flatMap.1 hx with ⟨p, _, hmem⟩
  rcases List.mem_filterMap.1 hmem with ⟨k, _, hk⟩
  exact decode_topk_some hk

theorem mem_insertDesc {x y : String × Q} {l : List (String × Q)} :
    y ∈ insertDesc x l ↔ y = x ∨ y ∈ l := by
  induction l with
  | nil => simp [insertDesc]
  | cons z zs ih =>
    unfold insertDesc
    by_cases hz : z.2 ≤ x.2
    · simp [hz]
    · simp only [hz, if_false, List.mem_cons, ih]
      tauto

theorem mem_sortDesc {y : String × Q} {l : List (String × Q)} :
    y ∈ sortDesc l ↔ y ∈ l := by
  induction l with
  | nil => simp [sortDesc]
  | cons z zs ih =>
    unfold sortDesc
    rw [mem_insertDesc]
    simp [ih]

theorem process_single_sentence_ok_sub {E : Env Q} {pairs : List (List String)}
    {part : List (Nat × Nat)} {total : List (List Int)} {tpp topk n : Nat}
    {lst : List String} {hd tl : String}
    (h : process_single_sentence E pairs part total tpp topk n = .ok lst)
    (hp : pairs.getD n [] = [hd, tl]) :
    ∀ b ∈ lst, strHasSub hd b = true ∧ strHasSub tl b = true := by
  unfold process_single_sentence at h
  rw [hp] at h
  cases h
  intro b hb
  have hb2 := List.take_subset _ _ hb
  rcases List.mem_map.1 hb2 with ⟨x, hxs, rfl⟩
  have hxt := mem_sortDesc.1 hxs
  rcases List.mem_flatMap.1 hxt with ⟨i, _, hxr⟩
  exact rowCandidates_sub hxr

theorem replace_single_mask_ok_inv {E : Env Q} {ml : Nat} {ic : Bool}
    {sents : List String} {pairs : List (List String)} {topk tpp : Nat}
    {pf : Bool} {out : List String}
    (h : replace_single_mask E ml ic sents pairs topk tpp pf = .ok out) :
    sents.length = pairs.length ∧
    ∃ data greedy,
      mapEx (fun x => encode_plus E ml ic (!strHasSub E.mask x) x) sents
          = .ok data
      ∧ pairs.length = (get_partition data).length
      ∧ mapEx (process_single_sentence E pairs (get_partition data)
          (data.flatten.map (fun enc => enc.input_ids)) tpp topk)
          (List.range (get_partition data).length) = .ok greedy
      ∧ ((pf = true ∧ mapEx (ppl_select E ml ic) greedy = .ok out)
         ∨ (pf = false ∧ mapEx first_select greedy = .ok out)) := by
  unfold replace_single_mask at h
  by_cases hlen : sents.length = pairs.length
  case neg => rw [if_neg hlen] at h; simp at h
  rw [if_pos hlen] at h
  rcases exBind_ok_inv h with ⟨data, hdata, h2⟩
  simp only [] at h2
  by_cases hplen : pairs.length = (get_partition data).length
  case neg => rw [if_neg hplen] at h2; simp at h2
  rw [if_pos hplen] at h2
  rcases exBind_ok_inv h2 with ⟨greedy, hgreedy, h3⟩
  refine ⟨hlen, data, greedy, hdata, hplen, hgreedy, ?_⟩
  cases pf with
  | true => exact Or.inl ⟨rfl, by simpa using h3⟩
  | false => exact Or.inr ⟨rfl, by simpa using h3⟩

theorem replace_single_mask_ok_length {E : Env Q} {ml : Nat} {ic : Bool}
    {sents : List String} {pairs : List (List String)} {topk tpp : Nat}
    {pf : Bool} {out : List String}
    (h : replace_single_mask E ml ic sents pairs topk tpp pf = .ok out) :
    out.length = pairs.length ∧ sents.length = pairs.length := by
  rcases replace_single_mask_ok_inv h with
    ⟨hlen, data, greedy, _, hplen, hgreedy, hsel⟩
  have hg : greedy.length = (get_partition data).length := by
    have := mapEx_ok_length hgreedy
    simpa using this
  have hout : out.length = greedy.length := by
    rcases hsel with ⟨_, hm⟩ | ⟨_, hm⟩ <;> exact mapEx_ok_length hm
  exact ⟨by omega, hlen⟩

theorem replace_single_mask_sub {E : Env Q} {ml : Nat} {ic : Bool}
    {sents : List String} {pairs : List (List String)} {topk tpp : Nat}
    {pf : Bool} {out : List String}
    (h : replace_single_mask E ml ic sents pairs topk tpp pf = .ok out)
    (i : Nat) (hd tl : String) (hi : i < out.length)
    (hp : pairs.getD i [] = [hd, tl]) :
    strHasSub hd (out.getD i "") = true
    ∧ strHasSub tl (out.getD i "") = true := by
  rcases replace_single_mask_ok_inv h with
    ⟨hlen, data, greedy, hdata, hplen, hgreedy, hsel⟩
  have hg : greedy.length = (get_partition data).length := by
    have := mapEx_ok_length hgreedy
    simpa using this
  have hout : out.length = greedy.length := by
    rcases hsel with ⟨_, hm⟩ | ⟨_, hm⟩ <;> exact mapEx_ok_length hm
  have hig : i < (List.range (get_partition data).length).length := by
    simp only [List.length_range]
    omega
  have hproc := mapEx_ok_getElem 0 [] hgreedy i hig
  rw [range_getD (by simpa using hig)] at hproc
  have hmem : out.getD i "" ∈ greedy.getD i [] := by
    rcases hsel with ⟨_, hm⟩ | ⟨_, hm⟩
    · exact ppl_select_mem (mapEx_ok_getElem [] "" hm i (by omega))
    · exact first_select_mem (mapEx_ok_getElem [] "" hm i (by omega))
  exact process_single_sentence_ok_sub hproc hp _ hmem

/-! ## `pair_to_seed` lemmas -/

theorem mem_range_drop_one {m x : Nat} :
    x ∈ (List.range m).drop 1 ↔ 1 ≤ x ∧ x < m := by
  cases m with
  | zero => simp
  | succ m' =>
    rw [List.range_succ_eq_map]
    simp only [List.drop_succ_cons, List.drop_zero, List.mem_map,
      List.mem_range]
    constructor
    · rintro ⟨y, hy, rfl⟩
      omega
    · rintro ⟨h1, h2⟩
      exact ⟨x - 1, by omega, by omega⟩

theorem mem_best_candidates {E : Env Q} {ml : Nat} {h t s : String} :
    s ∈ best_candidates E ml h t
      ↔ ∃ pre_n mid_n, pre_n < ml - 2 ∧ 1 ≤ mid_n ∧ mid_n < ml - 1 - pre_n
          ∧ s = String.intercalate " "
              ((List.replicate pre_n E.mask ++ [h])
                ++ (List.replicate mid_n E.mask ++ [t])) := by
  unfold best_candidates
  simp only [List.mem_flatMap, List.mem_range, List.mem_map]
  constructor
  · rintro ⟨pre_n, hpre, mid_n, hmid, rfl⟩
    rcases mem_range_drop_one.1 hmid with ⟨h1, h2⟩
    exact ⟨pre_n, mid_n, hpre, h1, h2, rfl⟩
  · rintro ⟨pre_n, mid_n, hpre, h1, h2, rfl⟩
    exact ⟨pre_n, hpre, mid_n, mem_range_drop_one.2 ⟨h1, h2⟩, rfl⟩

theorem pair_to_seed_sub {E : Env Q} {ml nb nbp nbs : Nat} {st s hd tl : String}
    (h : pair_to_seed E ml [hd, tl] nb nbp nbs st = .ok s) :
    strHasSub hd s = true ∧ strHasSub tl s = true := by
  unfold pair_to_seed at h
  rw [if_pos (show ([hd, tl] : List String).length = 2 from rfl)] at h
  replace h : (if st = "middle" then
      (Except.ok (String.intercalate " "
        ([hd] ++ List.replicate nb E.mask ++ [tl])) : Except String String)
    else if st = "whole" then
      Except.ok (String.intercalate " "
        (List.replicate nbp E.mask ++ [hd] ++ List.replicate nb E.mask
          ++ [tl] ++ List.replicate nbs E.mask))
    else if st = "best" then
      exBind (get_perplexity E ml false (best_candidates E ml hd tl))
        (fun ppl =>
          match ppl.min? with
          | none => Except.error "ValueError: min() arg is an empty sequence"
          | some m =>
            match (best_candidates E ml hd tl).get? (List.indexOf m ppl) with
            | some best_seed => Except.ok best_seed
            | none => Except.error "IndexError")
    else Except.error ("unknown seed type: " ++ st)) = Except.ok s := h
  by_cases hm : st = "middle"
  · rw [if_pos hm] at h
    cases h
    exact ⟨strHasSub_intercalate (by simp) " ",
      strHasSub_intercalate (by simp) " "⟩
  rw [if_neg hm] at h
  by_cases hw : st = "whole"
  · rw [if_pos hw] at h
    cases h
    exact ⟨strHasSub_intercalate (by simp) " ",
      strHasSub_intercalate (by simp) " "⟩
  rw [if_neg hw] at h
  by_cases hb : st = "best"
  · rw [if_pos hb] at h
    rcases exBind_ok_inv h with ⟨ppl, _, h2⟩
    rcases hmin : ppl.min? with _ | m <;> rw [hmin] at h2
    · simp at h2
    · have h3 : (match (best_candidates E ml hd tl).get?
            (List.indexOf m ppl) with
          | some c => (Except.ok c : Except String String)
          | none => Except.error "IndexError") = Except.ok s := h2
      rcases hget : (best_candidates E ml hd tl).get? (List.indexOf m ppl)
        with _ | c <;> rw [hget] at h3
      · simp at h3
      · cases h3
        have hmemc := List.get?_mem hget
        rcases mem_best_candidates.1 hmemc with ⟨pre, mid, _, _, _, rfl⟩
        exact ⟨strHasSub_intercalate (by simp) " ",
          strHasSub_intercalate (by simp) " "⟩
  · rw [if_neg hb] at h
    simp at h

/-! ## Loop invariants of `replace_mask` -/

theorem fill_loop_inv {E : Env Q} {ml : Nat} {ic : Bool}
    {pairs : List (List String)} {topk tpp : Nat} {pf : Bool}
    (P : List String → Prop)
    (hstep : ∀ s o,
      replace_single_mask E ml ic s pairs topk tpp pf = .ok o → P o) :
    ∀ (fuel : Nat) (sents : List String) (edit : List (List String))
      (out : List String) (edit' : List (List String)),
      fill_loop E ml ic pairs topk tpp pf fuel sents edit = .ok (out, edit') →
      P out ∧ ∀ row ∈ edit', row ∈ edit ∨ P row := by
  intro fuel
  induction fuel with
  | zero =>
    intro sents edit out edit' h
    simp [fill_loop] at h
  | succ n ih =>
    intro sents edit out edit' h
    unfold fill_loop at h
    rcases exBind_ok_inv h with ⟨ss, hss, h2⟩
    by_cases hall : ss.all (fun i => !strHasSub E.mask i) = true
    · rw [if_pos hall] at h2
      have h3 : (Except.ok (ss, edit)
          : Except String (List String × List (List String)))
          = .ok (out, edit') := h2
      cases h3
      exact ⟨hstep _ _ hss, fun row hr => Or.inl hr⟩
    · rw [if_neg hall] at h2
      rcases ih ss (edit ++ [ss]) out edit' h2 with ⟨hP, hrows⟩
      refine ⟨hP, fun row hr => ?_⟩
      rcases hrows row hr with hmem | hP'
      · rcases List.mem_append.1 hmem with hx | hx
        · exact Or.inl hx
        · simp only [List.mem_singleton] at hx
          subst hx
          exact Or.inr (hstep _ _ hss)
      · exact Or.inr hP'

theorem rev_loop_inv {E : Env Q} {ml : Nat} {ic : Bool}
    {pairs : List (List String)} {topk tpp : Nat} {pf : Bool}
    (P : List String → Prop)
    (hstep : ∀ s o,
      replace_single_mask E ml ic s pairs topk tpp pf = .ok o → P o) :
    ∀ (n : Nat) (sents : List String) (edit : List (List String))
      (out : List String) (edit' : List (List String)),
      P sents →
      rev_loop E ml ic pairs topk tpp pf n sents edit = .ok (out, edit') →
      P out ∧ ∀ row ∈ edit', row ∈ edit ∨ P row := by
  intro n
  induction n with
  | zero =>
    intro sents edit out edit' hP h
    have h3 : (Except.ok (sents, edit)
        : Except String (List String × List (List String)))
        = .ok (out, edit') := h
    cases h3
    exact ⟨hP, fun row hr => Or.inl hr⟩
  | succ n ih =>
    intro sents edit out edit' hP h
    unfold rev_loop at h
    rcases exBind_ok_inv h with ⟨ss, hss, h2⟩
    rcases ih ss (edit ++ [ss]) out edit' (hstep _ _ hss) h2 with ⟨hPo, hrows⟩
    refine ⟨hPo, fun row hr => ?_⟩
    rcases hrows row hr with hmem | hP'
    · rcases List.mem_append.1 hmem with hx | hx
      · exact Or.inl hx
      · simp only [List.mem_singleton] at hx
        subst hx
        exact Or.inr (hstep _ _ hss)
    · exact Or.inr hP'

theorem replace_mask_ok_inv {E : Env Q} {ml : Nat} {ic : Bool} {fuel : Nat}
    {pairs : List (List String)} {nb nrev topk tpp : Nat} {st : String}
    {pf : Bool} {nbp nbs : Nat}
    {res : List String × List (List String)}
    (h : replace_mask E ml ic fuel pairs nb nrev topk tpp st pf nbp nbs
        = .ok res) :
    ∃ seeds r1 r2,
      mapEx (fun x => pair_to_seed E ml x nb nbp nbs st) pairs = .ok seeds
      ∧ fill_loop E ml ic pairs topk tpp pf fuel seeds [seeds] = .ok r1
      ∧ rev_loop E ml ic pairs topk tpp pf nrev r1.1 r1.2 = .ok r2
      ∧ res = (r2.1, zipStar r2.2) := by
  unfold replace_mask at h
  rcases exBind_ok_inv h with ⟨seeds, hseeds, h2⟩
  rcases exBind_ok_inv h2 with ⟨r1, hr1, h3⟩
  rcases exBind_ok_inv h3 with ⟨r2, hr2, h4⟩
  have h5 : (Except.ok (r2.1, zipStar r2.2)
      : Except String (List String × List (List String))) = .ok res := h4
  cases h5
  exact ⟨seeds, r1, r2, hseeds, hr1, hr2, rfl⟩

/-! ## `zipStar` lemmas -/

theorem foldl_min_le_start (ls : List Nat) (a : Nat) : ls.foldl min a ≤ a := by
  induction ls generalizing a with
  | nil => exact le_refl a
  | cons y ys ih => exact le_trans (ih (min a y)) (min_le_left a y)

theorem foldl_min_le_mem (ls : List Nat) (a : Nat) :
    ∀ x ∈ ls, ls.foldl min a ≤ x := by
  induction ls generalizing a with
  | nil => intro x hx; cases hx
  | cons y ys ih =>
    intro x hx
    rcases List.mem_cons.1 hx with rfl | hx'
    · exact le_trans (foldl_min_le_start ys (min a x)) (min_le_right a x)
    · exact ih (min a y) x hx'

theorem zipStar_getD_mem {M : List (List String)} {i : Nat} {s : String}
    (hs : s ∈ (zipStar M).getD i []) :
    ∃ row ∈ M, s = row.getD i "" ∧ i < row.length := by
  cases M with
  | nil => simp [zipStar] at hs
  | cons r0 rest =>
    unfold zipStar at hs
    by_cases him : i < (rest.map List.length).foldl min r0.length
    · rw [getD_of_lt _ _ _ (by simpa using him)] at hs
      rw [List.getElem_map, List.getElem_range] at hs
      rcases List.mem_map.1 hs with ⟨row, hrow, rfl⟩
      refine ⟨row, hrow, rfl, ?_⟩
      rcases List.mem_cons.1 hrow with rfl | hr
      · exact lt_of_lt_of_le him (foldl_min_le_start _ _)
      · exact lt_of_lt_of_le him
          (foldl_min_le_mem _ _ _ (List.mem_map_of_mem List.length hr))
    · rw [List.getD_eq_getElem?_getD, List.getElem?_eq_none (by simp; omega)]
        at hs
      simp at hs

theorem mapEx_ok_forall {α β : Type} {f : α → Except String β} {l : List α}
    {r : List β} (h : mapEx f l = .ok r) : ∀ a ∈ l, ∃ b, f a = .ok b := by
  induction l generalizing r with
  | nil => intro a ha; cases ha
  | cons x xs ih =>
    simp only [mapEx] at h
    cases hfx : f x with
    | error e => rw [hfx] at h; cases h
    | ok b =>
      rw [hfx] at h
      cases hrest : mapEx f xs with
      | error e => rw [hrest] at h; cases h
      | ok bs =>
        intro a ha
        rcases List.mem_cons.1 ha with rfl | ha'
        · exact ⟨b, hfx⟩
        · exact ih hrest a ha'

theorem getD_mem {α : Type} {l : List α} {n : Nat} (h : n < l.length)
    (d : α) : l.getD n d ∈ l := by
  rw [getD_of_lt _ _ _ h]
  exact List.getElem_mem h

/-! ## Claim C2: the substring filter preserves head and tail -/

/-- **C2**: every sentence returned by `replace_single_mask` contains its word
pair's head and tail as substrings (the decode filter admits a candidate only
if both occur, and the selected edit always comes from the filtered list),
and hence so does every sentence in `replace_mask`'s output and per-pair edit
history, whenever the call returns at all (an empty filtered candidate list
makes the call raise instead — see C9). -/
theorem C2_filter_preserves_head_tail :
    (∀ (E : Env Q) (ml : Nat) (ic : Bool) (sents : List String)
        (pairs : List (List String)) (topk tpp : Nat) (pf : Bool)
        (out : List String) (i : Nat) (hd tl : String),
      replace_single_mask E ml ic sents pairs topk tpp pf = .ok out →
      i < out.length → pairs.getD i [] = [hd, tl] →
      strHasSub hd (out.getD i "") = true
      ∧ strHasSub tl (out.getD i "") = true)
    ∧ ∀ (E : Env Q) (ml : Nat) (ic : Bool) (fuel : Nat)
        (pairs : List (List String)) (nb nrev topk tpp : Nat) (st : String)
        (pf : Bool) (nbp nbs : Nat) (final : List String)
        (edit : List (List String)) (i : Nat) (hd tl : String),
      replace_mask E ml ic fuel pairs nb nrev topk tpp st pf nbp nbs
          = .ok (final, edit) →
      pairs.getD i [] = [hd, tl] →
      (i < final.length →
        strHasSub hd (final.getD i "") = true
        ∧ strHasSub tl (final.getD i "") = true)
      ∧ ∀ s ∈ edit.getD i [], strHasSub hd s = true ∧ strHasSub tl s = true := by
  constructor
  · intro E ml ic sents pairs topk tpp pf out i hd tl h hi hp
    exact replace_single_mask_sub h i hd tl hi hp
  · intro E ml ic fuel pairs nb nrev topk tpp st pf nbp nbs final edit i hd tl
      h hp
    rcases replace_mask_ok_inv h with ⟨seeds, r1, r2, hseeds, hfill, hrev, heq⟩
    have heq1 : final = r2.1 := congrArg Prod.fst heq
    have heq2 : edit = zipStar r2.2 := congrArg Prod.snd heq
    subst heq1
    subst heq2
    have hstep : ∀ s o,
        replace_single_mask E ml ic s pairs topk tpp pf = .ok o →
        (∀ j hd' tl', j < o.length → pairs.getD j [] = [hd', tl'] →
          strHasSub hd' (o.getD j "") = true
          ∧ strHasSub tl' (o.getD j "") = true) := by
      intro s o ho j hd' tl' hj hp'
      exact replace_single_mask_sub ho j hd' tl' hj hp'
    have hseedsP : ∀ j hd' tl', j < seeds.length →
        pairs.getD j [] = [hd', tl'] →
        strHasSub hd' (seeds.getD j "") = true
        ∧ strHasSub tl' (seeds.getD j "") = true := by
      intro j hd' tl' hj hp'
      have hlen := mapEx_ok_length hseeds
      have hps := mapEx_ok_getElem [] "" hseeds j (by omega)
      rw [hp'] at hps
      exact pair_to_seed_sub hps
    rcases fill_loop_inv
        (fun row => ∀ j hd' tl', j < row.length → pairs.getD j [] = [hd', tl'] →
          strHasSub hd' (row.getD j "") = true
          ∧ strHasSub tl' (row.getD j "") = true)
        hstep fuel seeds [seeds] r1.1 r1.2 hfill with ⟨hPr1, hrows1⟩
    rcases rev_loop_inv
        (fun row => ∀ j hd' tl', j < row.length → pairs.getD j [] = [hd', tl'] →
          strHasSub hd' (row.getD j "") = true
          ∧ strHasSub tl' (row.getD j "") = true)
        hstep nrev r1.1 r1.2 r2.1 r2.2 hPr1 hrev with ⟨hPfin, hrows2⟩
    constructor
    · intro hilen
      exact hPfin i hd tl hilen hp
    · intro s hs
      rcases zipStar_getD_mem hs with ⟨row, hrow, rfl, hlt⟩
      have hProw : ∀ j hd' tl', j < row.length →
          pairs.getD j [] = [hd', tl'] →
          strHasSub hd' (row.getD j "") = true
          ∧ strHasSub tl' (row.getD j "") = true := by
        rcases hrows2 row hrow with hmem | hPr
        · rcases hrows1 row hmem with hmem1 | hPr1'
          · simp only [List.mem_singleton] at hmem1
            subst hmem1
            exact hseedsP
          · exact hPr1'
        · exact hPr
      exact hProw i hd tl hlt hp

/-- Witness for C2 at a concrete successful run. -/
theorem C2_filter_preserves_head_tail_witness :
    strHasSub "a" ((["a b "] : List String).getD 0 "") = true
    ∧ strHasSub "b" ((["a b "] : List String).getD 0 "") = true :=
  C2_filter_preserves_head_tail.1 toyEnv 4 false ["a M b"] [["a", "b"]] 5 1
    true ["a b "] 0 "a" "b" (by decide) (by decide) (by decide)

/-! ## Claim C9: an empty filtered candidate list makes the call raise -/

/-- **C9**: if for some sentence the head/tail substring filter rejects every
top-k decoded prediction (its candidate list is empty), `replace_single_mask`
fails with an uncaught error in both modes: with `perplexity_filter=True` the
perplexity of the empty list is the empty list and `min()` raises, and with
`perplexity_filter=False` indexing `[0]` into the empty list raises; there is
no fallback returning the sentence unchanged. -/
theorem C9_empty_filter_crashes :
    (∀ (E : Env Q) (ml : Nat) (ic : Bool) (sents : List String)
        (pairs : List (List String)) (topk tpp : Nat)
        (data : List (List Encode)) (n : Nat),
      sents.length = pairs.length →
      mapEx (fun x => encode_plus E ml ic (!strHasSub E.mask x) x) sents
          = .ok data →
      n < sents.length →
      process_single_sentence E pairs (get_partition data)
        (data.flatten.map (fun enc => enc.input_ids)) tpp topk n = .ok [] →
      (∃ e, replace_single_mask E ml ic sents pairs topk tpp true = .error e)
      ∧ ∃ e, replace_single_mask E ml ic sents pairs topk tpp false
          = .error e)
    ∧ (∀ (E : Env Q) (ml : Nat) (ic : Bool),
        get_perplexity E ml ic [] = .ok []
        ∧ ppl_select E ml ic []
            = .error "ValueError: min() arg is an empty sequence")
    ∧ first_select [] = .error "IndexError: list index out of range" := by
  refine ⟨?_, fun E ml ic => ⟨rfl, rfl⟩, rfl⟩
  intro E ml ic sents pairs topk tpp data n hlen hdata hn hproc
  have hdlen : data.length = sents.length := mapEx_ok_length hdata
  have hplen : pairs.length = (get_partition data).length := by
    rw [get_partition_length]
    omega
  have main : ∀ (chooser : List String → Except String String),
      chooser [] = .error "boom" → False ∨ True := fun _ _ => Or.inr trivial
  constructor
  · refine ?_
    unfold replace_single_mask
    rw [if_pos hlen, hdata]
    simp only [exBind]
    rw [if_pos hplen]
    cases hmap : mapEx
        (process_single_sentence E pairs (get_partition data)
          (data.flatten.map (fun enc => enc.input_ids)) tpp topk)
        (List.range (get_partition data).length) with
    | error e => exact ⟨e, rfl⟩
    | ok greedy =>
      simp only [exBind, if_pos]
      have hglen : greedy.length = (get_partition data).length := by
        simpa using mapEx_ok_length hmap
      have hni : n < (List.range (get_partition data).length).length := by
        simp
        omega
      have hg := mapEx_ok_getElem 0 [] hmap n hni
      rw [range_getD (by simpa using hni)] at hg
      rw [hproc] at hg
      injection hg with hge
      cases hres : mapEx (ppl_select E ml ic) greedy with
      | error e => exact ⟨e, rfl⟩
      | ok r =>
        exfalso
        have hmem : greedy.getD n [] ∈ greedy := getD_mem (by omega) []
        rcases mapEx_ok_forall hres _ hmem with ⟨b, hb⟩
        rw [← hge] at hb
        have hempty : ppl_select E ml ic ([] : List String)
            = .error "ValueError: min() arg is an empty sequence" := rfl
        rw [hempty] at hb
        cases hb
  · unfold replace_single_mask
    rw [if_pos hlen, hdata]
    simp only [exBind]
    rw [if_pos hplen]
    cases hmap : mapEx
        (process_single_sentence E pairs (get_partition data)
          (data.flatten.map (fun enc => enc.input_ids)) tpp topk)
        (List.range (get_partition data).length) with
    | error e => exact ⟨e, rfl⟩
    | ok greedy =>
      simp only [exBind, Bool.false_eq_true, if_false]
      have hglen : greedy.length = (get_partition data).length := by
        simpa using mapEx_ok_length hmap
      have hni : n < (List.range (get_partition data).length).length := by
        simp
        omega
      have hg := mapEx_ok_getElem 0 [] hmap n hni
      rw [range_getD (by simpa using hni)] at hg
      rw [hproc] at hg
      injection hg with hge
      cases hres : mapEx first_select greedy with
      | error e => exact ⟨e, rfl⟩
      | ok r =>
        exfalso
        have hmem : greedy.getD n [] ∈ greedy := getD_mem (by omega) []
        rcases mapEx_ok_forall hres _ hmem with ⟨b, hb⟩
        rw [← hge] at hb
        have hempty : first_select ([] : List String)
            = .error "IndexError: list index out of range" := rfl
        rw [hempty] at hb
        cases hb

/-- Witness for C9: under `toyEnvReject` the decoder output `"z"` never
contains the pair words, the filtered list is empty, and both modes raise. -/
theorem C9_empty_filter_crashes_witness :
    (∃ e, replace_single_mask toyEnvReject 4 false ["a M b"] [["a", "b"]]
        5 1 true = .error e)
    ∧ ∃ e, replace_single_mask toyEnvReject 4 false ["a M b"] [["a", "b"]]
        5 1 false = .error e :=
  C9_empty_filter_crashes.1 toyEnvReject 4 false ["a M b"] [["a", "b"]] 5 1
    [[⟨[9, 7], []⟩]] 0 (by decide) (by decide) (by decide) (by decide)

/-! ## Characterizing `get_perplexity` per sentence (claims C4, C5) -/

theorem mapEx_ok_of_fn {α β : Type} {f : α → Except String β} {g : α → β}
    {l : List α} (h : ∀ a ∈ l, f a = .ok (g a)) :
    mapEx f l = .ok (l.map g) := by
  induction l with
  | nil => rfl
  | cons x xs ih =>
    simp only [mapEx, h x (List.mem_cons_self x xs),
      ih (fun a ha => h a (List.mem_cons_of_mem x ha)), List.map_cons]

theorem filterMap_id_map_ite {α β : Type} (p : α → Bool) (g : α → β)
    (l : List α) :
    List.filterMap id
        (l.map (fun i => if p i = true then none else some (g i)))
      = (l.filter (fun i => !p i)).map g := by
  induction l with
  | nil => rfl
  | cons x xs ih =>
    by_cases hx : p x = true
    · simp [hx, ih]
    · simp only [Bool.not_eq_true] at hx
      simp [hx, ih]

theorem setAll_single (l : List Int) (p : Nat) (v : Int) (hp : p < l.length) :
    setAll l [(p, v)] = .ok (l.set p v) := by
  simp [setAll, hp]

/-- Summing a function over `range L` when it vanishes except at one
position picks out that position's value. -/
theorem range_sum_single (F : Nat → Q) (L p : Nat) (hp : p < L)
    (h0 : ∀ j, j < L → j ≠ p → F j = 0) :
    ((List.range L).map F).sum = F p := by
  induction L with
  | zero => omega
  | succ L ih =>
    rw [List.range_succ, List.map_append, List.sum_append]
    by_cases hpL : p = L
    · subst hpL
      have hzero : ((List.range p).map F).sum = 0 := by
        apply List.sum_eq_zero
        intro x hx
        rcases List.mem_map.1 hx with ⟨j, hj, rfl⟩
        exact h0 j (by simpa using Nat.lt_succ_of_lt (List.mem_range.1 hj))
          (Nat.ne_of_lt (List.mem_range.1 hj))
      simp [hzero]
    · have hFL : F L = 0 := h0 L (Nat.lt_succ_self L) (fun h => hpL h.symm)
      have hrec := ih (by omega)
        (fun j hj hjp => h0 j (Nat.lt_succ_of_lt hj) hjp)
      simp [hFL, hrec]

/-- The labels list built for a single-position mask has exactly one
non-ignored entry. -/
theorem filter_ne_pad_single :
    ∀ (L p : Nat) (v : Int), p < L → v ≠ PAD_TOKEN_LABEL_ID →
      ((((List.replicate L PAD_TOKEN_LABEL_ID).set p v).filter
          (fun y => y ≠ PAD_TOKEN_LABEL_ID)).length) = 1 := by
  intro L
  induction L with
  | zero => intro p v hp; omega
  | succ L ih =>
    intro p v hp hv
    rw [List.replicate_succ]
    cases p with
    | zero =>
      rw [List.set_cons_zero]
      have hrep : ((List.replicate L PAD_TOKEN_LABEL_ID).filter
          (fun y => y ≠ PAD_TOKEN_LABEL_ID)) = [] := by
        rw [List.filter_eq_nil_iff]
        intro a ha
        rw [List.eq_of_mem_replicate ha]
        simp
      simp [List.filter_cons, hv, hrep]
    | succ j =>
      rw [List.set_cons_succ]
      have hthis := ih j v (by omega) hv
      simp only [ne_eq, decide_not] at hthis
      simp [List.filter_cons, hthis]

/-- The non-mask token positions of a sentence (the variants `get_perplexity`
builds, one per position whose token id is not the mask id). -/
def posList (E : Env Q) (s : String) : List Nat :=
  (List.range (E.tokenize s).length).filter
    (fun i => !decide (E.convertId ((E.tokenize s).getD i "") = E.maskId))

/-- The `Encode` produced for the variant masking position `i` of sentence
`s`: the variant's ids and the label list that is `PAD` everywhere except at
the shifted mask position. -/
def variantEncode (E : Env Q) (s : String) (i : Nat) : Encode :=
  ⟨E.enc (E.toStr ((E.tokenize s).set i E.mask)),
   (List.replicate (E.enc (E.toStr ((E.tokenize s).set i E.mask))).length
       PAD_TOKEN_LABEL_ID).set
     (i + E.sp_len) (E.convertId ((E.tokenize s).getD i ""))⟩

/-- Modelled from claim C4's wording: one single-position-masked variant per
non-mask token position; the cross-entropy of the model's prediction against
the true token at the masked position of each variant; the sum of these
per-position losses divided by the number of variants; `exp` of the
average. -/
def claimC4_sentence_ppl (E : Env Q) (s : String) : Q :=
  E.expQ
    ((((posList E s).map (fun i =>
        E.ce (E.enc (E.toStr ((E.tokenize s).set i E.mask))) (i + E.sp_len)
          (E.convertId ((E.tokenize s).getD i "")))).sum)
      / (((posList E s).length : Nat) : Q))

/-- Executable precondition for the per-sentence perplexity characterization:
the token list fits in `max_length` (no truncation), every variant's encoding
passes the length assertion with its label position in range and a token id
distinct from the ignore index, and at least one position is not the mask. -/
def ppl_ok_check (E : Env Q) (max_length : Nat) (s : String) : Bool :=
  decide (E.sp_len + (E.tokenize s).length ≤ max_length)
  && (List.range (E.tokenize s).length).all (fun i =>
      decide ((E.enc (E.toStr ((E.tokenize s).set i E.mask))).length
          < max_length)
      && decide (i + E.sp_len
          < (E.enc (E.toStr ((E.tokenize s).set i E.mask))).length)
      && decide (E.convertId ((E.tokenize s).getD i "")
          ≠ PAD_TOKEN_LABEL_ID))
  && (List.range (E.tokenize s).length).any (fun i =>
      decide (E.convertId ((E.tokenize s).getD i "") ≠ E.maskId))

/-- The row loss sum of `rowNll` as a total function of the row. -/
def rowVal (E : Env Q) (e : Encode) : Q :=
  ((List.range e.labels.length).map
    (fun p => if e.labels.getD p 0 = PAD_TOKEN_LABEL_ID then 0
              else E.ce e.input_ids p (e.labels.getD p 0))).sum

theorem filterMap_id_map_dite {α β : Type} (P : α → Prop) [DecidablePred P]
    (g : α → β) (l : List α) :
    List.filterMap id (l.map (fun i => if P i then none else some (g i)))
      = (l.filter (fun i => !decide (P i))).map g := by
  induction l with
  | nil => rfl
  | cons x xs ih =>
    by_cases hx : P x
    · simp [hx, ih]
    · simp [hx, ih]

theorem encode_with_single_mask_id_eq (E : Env Q) (ml : Nat) (s : String)
    (i : Nat)
    (hfit : (E.enc (E.toStr ((E.tokenize s).set i E.mask))).length < ml)
    (hpos : i + E.sp_len
        < (E.enc (E.toStr ((E.tokenize s).set i E.mask))).length) :
    encode_with_single_mask_id E ml (E.tokenize s) i
      = .ok (if E.convertId ((E.tokenize s).getD i "") = E.maskId then none
             else some (variantEncode E s i)) := by
  unfold encode_with_single_mask_id
  by_cases hskip : E.convertId ((E.tokenize s).getD i "") = E.maskId
  · rw [if_pos hskip, if_pos hskip]
  · have hset := setAll_single
      (List.replicate
        (E.enc (E.toStr ((E.tokenize s).set i E.mask))).length
        PAD_TOKEN_LABEL_ID)
      (i + E.sp_len) (E.convertId ((E.tokenize s).getD i ""))
      (by simpa using hpos)
    have hlab : input_ids_to_labels false E.padId
        (E.enc (E.toStr ((E.tokenize s).set i E.mask)))
        (some [i + E.sp_len])
        (some [E.convertId ((E.tokenize s).getD i "")])
        = .ok ((List.replicate
            (E.enc (E.toStr ((E.tokenize s).set i E.mask))).length
            PAD_TOKEN_LABEL_ID).set
          (i + E.sp_len) (E.convertId ((E.tokenize s).getD i ""))) := by
      show exBind
          (setAll (List.replicate
              (E.enc (E.toStr ((E.tokenize s).set i E.mask))).length
              PAD_TOKEN_LABEL_ID)
            [(i + E.sp_len, E.convertId ((E.tokenize s).getD i ""))])
          (fun label => (Except.ok (if (false : Bool) = true
            then List.drop 1 label ++ [PAD_TOKEN_LABEL_ID] else label)
            : Except String (List Int)))
        = _
      rw [hset]
      rfl
    rw [if_neg hskip, if_pos hfit, hlab, if_neg hskip]
    rfl

theorem encode_plus_token_wise_eq (E : Env Q) (ml : Nat) (s : String)
    (hlen : E.sp_len + (E.tokenize s).length ≤ ml)
    (hvar : ∀ i, i < (E.tokenize s).length →
      (E.enc (E.toStr ((E.tokenize s).set i E.mask))).length < ml
      ∧ i + E.sp_len
          < (E.enc (E.toStr ((E.tokenize s).set i E.mask))).length) :
    encode_plus E ml false true s
      = .ok ((posList E s).map (variantEncode E s)) := by
  have hmin : min (ml - E.sp_len) (E.tokenize s).length
      = (E.tokenize s).length := by omega
  show exBind
      (mapEx (encode_with_single_mask_id E ml (E.tokenize s))
        (List.range (min (ml - E.sp_len) (E.tokenize s).length)))
      (fun opts => .ok (opts.filterMap id))
    = _
  rw [hmin]
  have hmap : mapEx (encode_with_single_mask_id E ml (E.tokenize s))
      (List.range (E.tokenize s).length)
      = .ok ((List.range (E.tokenize s).length).map
          (fun i => if E.convertId ((E.tokenize s).getD i "") = E.maskId
            then none else some (variantEncode E s i))) := by
    apply mapEx_ok_of_fn
    intro i hi
    have hi' := List.mem_range.1 hi
    exact encode_with_single_mask_id_eq E ml s i (hvar i hi').1 (hvar i hi').2
  rw [hmap]
  simp only [exBind]
  rw [filterMap_id_map_dite
    (fun i => E.convertId ((E.tokenize s).getD i "") = E.maskId)
    (variantEncode E s) (List.range (E.tokenize s).length)]
  rfl

theorem rowVal_variant (E : Env Q) (s : String) (i : Nat)
    (hpos : i + E.sp_len
        < (E.enc (E.toStr ((E.tokenize s).set i E.mask))).length)
    (hv : E.convertId ((E.tokenize s).getD i "") ≠ PAD_TOKEN_LABEL_ID) :
    rowVal E (variantEncode E s i)
      = E.ce (E.enc (E.toStr ((E.tokenize s).set i E.mask))) (i + E.sp_len)
          (E.convertId ((E.tokenize s).getD i "")) := by
  unfold rowVal variantEncode
  have hL : ((List.replicate
      (E.enc (E.toStr ((E.tokenize s).set i E.mask))).length
      PAD_TOKEN_LABEL_ID).set
      (i + E.sp_len) (E.convertId ((E.tokenize s).getD i ""))).length
      = (E.enc (E.toStr ((E.tokenize s).set i E.mask))).length := by
    simp
  rw [hL]
  set L := (E.enc (E.toStr ((E.tokenize s).set i E.mask))).length with hLdef
  set labels := (List.replicate L PAD_TOKEN_LABEL_ID).set
    (i + E.sp_len) (E.convertId ((E.tokenize s).getD i "")) with hlabels
  have hgetp : labels.getD (i + E.sp_len) 0
      = E.convertId ((E.tokenize s).getD i "") := by
    rw [hlabels, getD_of_lt _ _ _ (by simp; omega)]
    simp [List.getElem_set_self]
  have hgetj : ∀ j, j < L → j ≠ i + E.sp_len → labels.getD j 0
      = PAD_TOKEN_LABEL_ID := by
    intro j hj hji
    rw [hlabels, getD_of_lt _ _ _ (by simp; omega)]
    rw [List.getElem_set_ne (fun h => hji h.symm)]
    simp
  rw [range_sum_single _ L (i + E.sp_len) hpos]
  · rw [hgetp, if_neg hv]
  · intro j hj hji
    rw [hgetj j hj hji]
    simp

theorem rowNll_variant (E : Env Q) (s : String) (i : Nat)
    (hpos : i + E.sp_len
        < (E.enc (E.toStr ((E.tokenize s).set i E.mask))).length)
    (hv : E.convertId ((E.tokenize s).getD i "") ≠ PAD_TOKEN_LABEL_ID)
    (hdiv : ∀ x : Q, x / ((1 : Nat) : Q) = x) :
    rowNll E (variantEncode E s i) = .ok (rowVal E (variantEncode E s i)) := by
  unfold rowNll
  have hcnt : ((variantEncode E s i).labels.filter
      (fun y => y ≠ PAD_TOKEN_LABEL_ID)).length = 1 := by
    unfold variantEncode
    exact filter_ne_pad_single _ _ _ (by simpa using hpos) hv
  rw [hcnt]
  simp only [if_neg (by omega : ¬(1 : Nat) = 0)]
  rw [hdiv]
  rfl

theorem list_eq_of_getD {α : Type} (d₁ d₂ : α) {l₁ l₂ : List α}
    (hlen : l₁.length = l₂.length)
    (h : ∀ n, n < l₁.length → l₁.getD n d₁ = l₂.getD n d₂) : l₁ = l₂ := by
  apply List.ext_getElem hlen
  intro n h1 h2
  have hx := h n h1
  rwa [getD_of_lt _ _ _ h1, getD_of_lt _ _ _ h2] at hx

theorem getD_map_lt {α β : Type} (f : α → β) (l : List α) (n : Nat)
    (hd : n < l.length) (d₁ : β) (d₂ : α) :
    (l.map f).getD n d₁ = f (l.getD n d₂) := by
  rw [getD_of_lt _ _ _ (by simpa using hd), List.getElem_map,
    getD_of_lt _ _ _ hd]

theorem ppl_ok_check_spec {E : Env Q} {ml : Nat} {s : String}
    (h : ppl_ok_check E ml s = true) :
    (E.sp_len + (E.tokenize s).length ≤ ml)
    ∧ (∀ i, i < (E.tokenize s).length →
        (E.enc (E.toStr ((E.tokenize s).set i E.mask))).length < ml
        ∧ i + E.sp_len
            < (E.enc (E.toStr ((E.tokenize s).set i E.mask))).length
        ∧ E.convertId ((E.tokenize s).getD i "") ≠ PAD_TOKEN_LABEL_ID)
    ∧ 0 < (posList E s).length := by
  unfold ppl_ok_check at h
  simp only [Bool.and_eq_true, List.all_eq_true, List.any_eq_true,
    decide_eq_true_eq, List.mem_range] at h
  obtain ⟨⟨h1, h2⟩, h3⟩ := h
  refine ⟨h1, fun i hi => ?_, ?_⟩
  · have hx := h2 i hi
    tauto
  · rcases h3 with ⟨i, hi, hne⟩
    have hmem : i ∈ posList E s := by
      unfold posList
      rw [List.mem_filter]
      exact ⟨List.mem_range.2 hi, by simpa using hne⟩
    exact List.length_pos_of_mem hmem

theorem get_perplexity_spec (E : Env Q) (ml : Nat) (sentences : List String)
    (hdiv : ∀ x : Q, x / ((1 : Nat) : Q) = x)
    (h : ∀ s ∈ sentences, ppl_ok_check E ml s = true) :
    get_perplexity E ml false sentences
      = .ok (sentences.map (claimC4_sentence_ppl E)) := by
  have hdata : mapEx (encode_plus E ml false true) sentences
      = .ok (sentences.map (fun s => (posList E s).map (variantEncode E s))) := by
    apply mapEx_ok_of_fn
    intro s hs
    obtain ⟨h1, h2, _⟩ := ppl_ok_check_spec (h s hs)
    exact encode_plus_token_wise_eq E ml s h1
      (fun i hi => ⟨(h2 i hi).1, (h2 i hi).2.1⟩)
  unfold get_perplexity
  rw [hdata]
  simp only [exBind]
  have hrows : ∀ e ∈ (sentences.map
        (fun s => (posList E s).map (variantEncode E s))).flatten,
      rowNll E e = .ok (rowVal E e) := by
    intro e he
    rw [List.mem_flatten] at he
    rcases he with ⟨row, hrow, he⟩
    rcases List.mem_map.1 hrow with ⟨s, hs, rfl⟩
    rcases List.mem_map.1 he with ⟨i, hi, rfl⟩
    obtain ⟨_, h2, _⟩ := ppl_ok_check_spec (h s hs)
    have hilen : i < (E.tokenize s).length := by
      have := (List.mem_filter.1 hi).1
      simpa using this
    exact rowNll_variant E s i (h2 i hilen).2.1 (h2 i hilen).2.2 hdiv
  rw [mapEx_ok_of_fn hrows]
  simp only [exBind]
  set data := sentences.map (fun s => (posList E s).map (variantEncode E s))
    with hdatadef
  have hdlen : data.length = sentences.length := by
    rw [hdatadef, List.length_map]
  have hrowlen : ∀ n, n < data.length →
      (data.getD n []).length = (posList E (sentences.getD n "")).length := by
    intro n hn
    have hn2 : n < sentences.length := by omega
    rw [hdatadef, getD_map_lt _ _ _ hn2 _ "", List.length_map]
  have hcpos : ∀ n, n < data.length → 0 < (data.getD n []).length := by
    intro n hn
    rw [hrowlen n hn]
    have hsmem : sentences.getD n "" ∈ sentences := getD_mem (by omega) ""
    exact (ppl_ok_check_spec (h _ hsmem)).2.2
  have hone : ∀ se ∈ get_partition data,
      (if se.2 - se.1 = 0 then
          (Except.error "ZeroDivisionError" : Except String Q)
        else .ok (E.expQ
          ((((data.flatten.map (rowVal E)).drop se.1).take
              (se.2 - se.1)).sum / ((se.2 - se.1 : Nat) : Q))))
      = .ok (E.expQ
          ((((data.flatten.map (rowVal E)).drop se.1).take
              (se.2 - se.1)).sum / ((se.2 - se.1 : Nat) : Q))) := by
    intro se hse
    unfold get_partition at hse
    rcases List.mem_map.1 hse with ⟨n, hn, rfl⟩
    have hn' : n < data.length := by simpa using List.mem_range.1 hn
    have hsum := sum_take_len_succ data n hn'
    have hpos := hcpos n hn'
    exact if_neg (by simp only []; omega)
  rw [mapEx_ok_of_fn (fun se hse => hone se hse)]
  congr 1
  have key : ∀ n, n < data.length →
      E.expQ ((((data.flatten.map (rowVal E)).drop
            ((get_partition data).getD n (0, 0)).1).take
          (((get_partition data).getD n (0, 0)).2
            - ((get_partition data).getD n (0, 0)).1)).sum
        / ((((get_partition data).getD n (0, 0)).2
            - ((get_partition data).getD n (0, 0)).1 : Nat) : Q))
      = claimC4_sentence_ppl E (sentences.getD n "") := by
    intro n hn'
    rw [get_partition_getD data n hn']
    have hsum := sum_take_len_succ data n hn'
    have hdiff : ((data.map List.length).take (n + 1)).sum
        - ((data.map List.length).take n).sum
        = (data.getD n []).length := by omega
    simp only [hdiff]
    have hslice : (((data.flatten.map (rowVal E)).drop
          (((data.map List.length).take n).sum)).take
        ((data.getD n []).length))
        = (data.getD n []).map (rowVal E) := by
      rw [← List.map_drop, flatten_drop_sum]
      have hdropn : data.drop n = (data.getD n []) :: data.drop (n + 1) := by
        rw [List.drop_eq_getElem_cons hn', getD_of_lt _ _ _ hn']
      rw [hdropn, List.flatten_cons, ← List.map_take, List.take_left]
    rw [hslice]
    have hgetd : data.getD n []
        = (posList E (sentences.getD n "")).map
            (variantEncode E (sentences.getD n "")) := by
      have hn2 : n < sentences.length := by omega
      rw [hdatadef, getD_map_lt _ _ _ hn2 _ ""]
    rw [hgetd, List.map_map, List.length_map]
    have hsmem : sentences.getD n "" ∈ sentences := getD_mem (by omega) ""
    obtain ⟨_, hA, _⟩ := ppl_ok_check_spec (h _ hsmem)
    have hmapeq : (posList E (sentences.getD n "")).map
          ((rowVal E) ∘ (variantEncode E (sentences.getD n "")))
        = (posList E (sentences.getD n "")).map (fun i =>
            E.ce (E.enc (E.toStr
                ((E.tokenize (sentences.getD n "")).set i E.mask)))
              (i + E.sp_len)
              (E.convertId
                ((E.tokenize (sentences.getD n "")).getD i ""))) := by
      apply List.map_congr_left
      intro i hi
      have hilen : i < (E.tokenize (sentences.getD n "")).length := by
        have := (List.mem_filter.1 hi).1
        simpa using this
      exact rowVal_variant E _ i (hA i hilen).2.1 (hA i hilen).2.2
    rw [hmapeq]
    rfl
  apply list_eq_of_getD (0 : Q) (0 : Q)
  · rw [List.length_map, List.length_map, get_partition_length, hdlen]
  · intro n hn'
    have hn2 : n < data.length := by
      rw [List.length_map, get_partition_length] at hn'
      exact hn'
    rw [getD_map_lt _ _ _ (by rw [get_partition_length]; exact hn2) _ (0, 0)]
    rw [getD_map_lt _ _ _ (by omega) _ ""]
    exact key n hn2

/-! ## Claims C4 and C5 -/

/-- **C4**: `get_perplexity` builds one single-position-masked variant per
non-mask token position, computes the cross-entropy loss of the model's
prediction against the true token at the masked position of each variant,
sums these per-position losses, divides by the number of variants, and
returns `exp` of that average — the code's batched, partition-recovered
computation equals the per-sentence formula `claimC4_sentence_ppl`, which is
written from the claim's wording. -/
theorem C4_get_perplexity_formula (E : Env Q) (ml : Nat)
    (sentences : List String)
    (hdiv : ∀ x : Q, x / ((1 : Nat) : Q) = x)
    (h : sentences.all (ppl_ok_check E ml) = true) :
    get_perplexity E ml false sentences
      = .ok (sentences.map (claimC4_sentence_ppl E)) :=
  get_perplexity_spec E ml sentences hdiv (List.all_eq_true.1 h)

/-- Witness for C4 at the concrete environment. -/
theorem C4_get_perplexity_formula_witness :
    (["x"] : List String).all (ppl_ok_check toyEnv 4) = true
    ∧ get_perplexity toyEnv 4 false ["x"]
        = .ok ((["x"] : List String).map (claimC4_sentence_ppl toyEnv)) :=
  ⟨by decide, C4_get_perplexity_formula toyEnv 4 ["x"]
    (fun x => by rw [Nat.cast_id, Nat.div_one]) (by decide)⟩

/-- **C5**: `get_perplexity` is invariant to the order of its input list:
each sentence's perplexity is computed only from that sentence's own masked
variants (the result is a `map` of a per-sentence function), so a permuted
input yields the same permutation of the results. -/
theorem C5_get_perplexity_order_invariant (E : Env Q) (ml : Nat)
    (l₁ l₂ : List String)
    (hdiv : ∀ x : Q, x / ((1 : Nat) : Q) = x)
    (hperm : l₁.Perm l₂)
    (h : l₁.all (ppl_ok_check E ml) = true) :
    get_perplexity E ml false l₁ = .ok (l₁.map (claimC4_sentence_ppl E))
    ∧ get_perplexity E ml false l₂ = .ok (l₂.map (claimC4_sentence_ppl E))
    ∧ (l₁.map (claimC4_sentence_ppl E)).Perm
        (l₂.map (claimC4_sentence_ppl E)) := by
  have h2 : l₂.all (ppl_ok_check E ml) = true := by
    rw [List.all_eq_true] at h ⊢
    exact fun s hs => h s (hperm.mem_iff.2 hs)
  exact ⟨get_perplexity_spec E ml l₁ hdiv (List.all_eq_true.1 h),
    get_perplexity_spec E ml l₂ hdiv (List.all_eq_true.1 h2),
    hperm.map _⟩

/-- Witness for C5 on a two-element swap. -/
theorem C5_get_perplexity_order_invariant_witness :
    get_perplexity toyEnv 4 false ["x", "y"]
        = .ok ((["x", "y"] : List String).map (claimC4_sentence_ppl toyEnv))
    ∧ get_perplexity toyEnv 4 false ["y", "x"]
        = .ok ((["y", "x"] : List String).map (claimC4_sentence_ppl toyEnv))
    ∧ ((["x", "y"] : List String).map (claimC4_sentence_ppl toyEnv)).Perm
        ((["y", "x"] : List String).map (claimC4_sentence_ppl toyEnv)) :=
  C5_get_perplexity_order_invariant toyEnv 4 ["x", "y"] ["y", "x"]
    (fun x => by rw [Nat.cast_id, Nat.div_one])
    (List.Perm.swap "y" "x" []) (by decide)

/-! ## Claims C6 and C8: `pair_to_seed` seed types -/

theorem pair_to_seed_best_eq (E : Env Q) (ml nb nbp nbs : Nat)
    (h t : String) :
    pair_to_seed E ml [h, t] nb nbp nbs "best"
      = exBind (get_perplexity E ml false (best_candidates E ml h t))
          (fun ppl =>
            match ppl.min? with
            | none => .error "ValueError: min() arg is an empty sequence"
            | some m =>
              match (best_candidates E ml h t).get? (List.indexOf m ppl) with
              | some best_seed => .ok best_seed
              | none => .error "IndexError") := rfl

theorem pair_to_seed_best_ok (E : Env Q) (ml nb nbp nbs : Nat)
    (h t : String) (hml : 3 ≤ ml)
    (hdiv : ∀ x : Q, x / ((1 : Nat) : Q) = x)
    (hok : (best_candidates E ml h t).all (ppl_ok_check E ml) = true) :
    ∃ best_seed,
      pair_to_seed E ml [h, t] nb nbp nbs "best" = .ok best_seed
      ∧ best_seed ∈ best_candidates E ml h t
      ∧ ∀ c ∈ best_candidates E ml h t,
          claimC4_sentence_ppl E best_seed ≤ claimC4_sentence_ppl E c := by
  haveI : Std.Antisymm (fun (a b : Q) => a ≤ b) :=
    ⟨by intro a b hab hba; exact le_antisymm hab hba⟩
  have hppl := get_perplexity_spec E ml (best_candidates E ml h t) hdiv
    (List.all_eq_true.1 hok)
  have hne : best_candidates E ml h t ≠ [] := by
    intro hempty
    have hc0 : String.intercalate " "
        ((List.replicate 0 E.mask ++ [h]) ++ (List.replicate 1 E.mask ++ [t]))
        ∈ best_candidates E ml h t :=
      mem_best_candidates.2 ⟨0, 1, by omega, le_refl 1, by omega, rfl⟩
    rw [hempty] at hc0
    cases hc0
  have hpplne : (best_candidates E ml h t).map (claimC4_sentence_ppl E)
      ≠ [] := by
    intro hx
    exact hne (List.map_eq_nil_iff.1 hx)
  cases hmin : ((best_candidates E ml h t).map (claimC4_sentence_ppl E)).min?
    with
  | none =>
    exact absurd (List.min?_eq_none_iff.1 hmin) hpplne
  | some m =>
    have hmin_spec := (List.min?_eq_some_iff (fun a => le_refl a)
      (fun a b => min_choice a b) (fun a b c => le_min_iff)).1 hmin
    have hidx : List.indexOf m
        ((best_candidates E ml h t).map (claimC4_sentence_ppl E))
        < ((best_candidates E ml h t).map (claimC4_sentence_ppl E)).length :=
      List.indexOf_lt_length.2 hmin_spec.1
    have hidx' : List.indexOf m
        ((best_candidates E ml h t).map (claimC4_sentence_ppl E))
        < (best_candidates E ml h t).length := by
      rw [List.length_map] at hidx
      exact hidx
    have hget : (best_candidates E ml h t).get?
        (List.indexOf m
          ((best_candidates E ml h t).map (claimC4_sentence_ppl E)))
        = some ((best_candidates E ml h t)[List.indexOf m
          ((best_candidates E ml h t).map (claimC4_sentence_ppl E))]) := by
      rw [List.get?_eq_getElem?, List.getElem?_eq_getElem hidx']
    refine ⟨_, ?_, List.getElem_mem hidx', ?_⟩
    · rw [pair_to_seed_best_eq, hppl]
      show (match ((best_candidates E ml h t).map
            (claimC4_sentence_ppl E)).min? with
        | none => (Except.error "ValueError: min() arg is an empty sequence"
            : Except String String)
        | some m =>
          match (best_candidates E ml h t).get?
              (List.indexOf m ((best_candidates E ml h t).map
                (claimC4_sentence_ppl E))) with
          | some best_seed => .ok best_seed
          | none => .error "IndexError") = _
      rw [hmin]
      show (match (best_candidates E ml h t).get?
          (List.indexOf m ((best_candidates E ml h t).map
            (claimC4_sentence_ppl E))) with
        | some best_seed => (.ok best_seed : Except String String)
        | none => .error "IndexError") = _
      rw [hget]
    · intro c hc
      have hval : claimC4_sentence_ppl E
          ((best_candidates E ml h t)[List.indexOf m
            ((best_candidates E ml h t).map (claimC4_sentence_ppl E))])
          = m := by
        have := List.getElem_indexOf hidx
        rw [List.getElem_map] at this
        exact this
      rw [hval]
      exact hmin_spec.2 _ (List.mem_map_of_mem _ hc)

/-- **C6**: `pair_to_seed` with `seed_type='best'` enumerates exactly the
candidate templates `pre_n` masks + head + `mid_n` masks + tail for all
prefix/middle mask-count combinations within the model's max length (at
least one middle mask), computes perplexity for all of them, and returns a
candidate achieving the minimum perplexity. -/
theorem C6_pair_to_seed_best (E : Env Q) (ml nb nbp nbs : Nat)
    (h t : String) (hml : 3 ≤ ml)
    (hdiv : ∀ x : Q, x / ((1 : Nat) : Q) = x)
    (hok : (best_candidates E ml h t).all (ppl_ok_check E ml) = true) :
    (∀ x, x ∈ best_candidates E ml h t ↔
      ∃ pre_n mid_n, pre_n < ml - 2 ∧ 1 ≤ mid_n ∧ mid_n < ml - 1 - pre_n
        ∧ x = String.intercalate " "
            ((List.replicate pre_n E.mask ++ [h])
              ++ (List.replicate mid_n E.mask ++ [t])))
    ∧ ∃ best_seed,
        pair_to_seed E ml [h, t] nb nbp nbs "best" = .ok best_seed
        ∧ best_seed ∈ best_candidates E ml h t
        ∧ ∀ c ∈ best_candidates E ml h t,
            claimC4_sentence_ppl E best_seed ≤ claimC4_sentence_ppl E c :=
  ⟨fun _ => mem_best_candidates,
    pair_to_seed_best_ok E ml nb nbp nbs h t hml hdiv hok⟩

/-- Witness for C6 at the concrete environment (`max_length = 4`, three
candidates). -/
theorem C6_pair_to_seed_best_witness :
    (∀ x, x ∈ best_candidates toyEnv 4 "a" "b" ↔
      ∃ pre_n mid_n, pre_n < 4 - 2 ∧ 1 ≤ mid_n ∧ mid_n < 4 - 1 - pre_n
        ∧ x = String.intercalate " "
            ((List.replicate pre_n toyEnv.mask ++ ["a"])
              ++ (List.replicate mid_n toyEnv.mask ++ ["b"])))
    ∧ ∃ best_seed,
        pair_to_seed toyEnv 4 ["a", "b"] 2 2 2 "best" = .ok best_seed
        ∧ best_seed ∈ best_candidates toyEnv 4 "a" "b"
        ∧ ∀ c ∈ best_candidates toyEnv 4 "a" "b",
            claimC4_sentence_ppl toyEnv best_seed
              ≤ claimC4_sentence_ppl toyEnv c :=
  C6_pair_to_seed_best toyEnv 4 2 2 2 "a" "b" (by omega)
    (fun x => by rw [Nat.cast_id, Nat.div_one]) (by decide)

/-- **C8**: for every word pair and every `seed_type` other than `middle`,
`whole` and `best`, `pair_to_seed` raises rather than returning a template;
for the three recognized kinds it returns a string without error (for `best`
under the preconditions that make its perplexity sweep well-defined). -/
theorem C8_seed_type_errors (E : Env Q) (ml : Nat) :
    (∀ (word_pair : List String) (nb nbp nbs : Nat) (st : String),
      st ≠ "middle" → st ≠ "whole" → st ≠ "best" →
      ∃ e, pair_to_seed E ml word_pair nb nbp nbs st = .error e)
    ∧ ∀ (h t : String) (nb nbp nbs : Nat),
        (∃ s, pair_to_seed E ml [h, t] nb nbp nbs "middle" = .ok s)
        ∧ (∃ s, pair_to_seed E ml [h, t] nb nbp nbs "whole" = .ok s)
        ∧ (3 ≤ ml → (∀ x : Q, x / ((1 : Nat) : Q) = x) →
            (best_candidates E ml h t).all (ppl_ok_check E ml) = true →
            ∃ s, pair_to_seed E ml [h, t] nb nbp nbs "best" = .ok s) := by
  constructor
  · intro word_pair nb nbp nbs st h1 h2 h3
    rcases word_pair with _ | ⟨a, _ | ⟨b, _ | ⟨c, rest⟩⟩⟩
    · exact ⟨_, rfl⟩
    · exact ⟨_, rfl⟩
    · refine ⟨"unknown seed type: " ++ st, ?_⟩
      show (if st = "middle" then
          (Except.ok (String.intercalate " "
            ([a] ++ List.replicate nb E.mask ++ [b])) : Except String String)
        else if st = "whole" then
          Except.ok (String.intercalate " "
            (List.replicate nbp E.mask ++ [a] ++ List.replicate nb E.mask
              ++ [b] ++ List.replicate nbs E.mask))
        else if st = "best" then
          exBind (get_perplexity E ml false (best_candidates E ml a b))
            (fun ppl =>
              match ppl.min? with
              | none =>
                .error "ValueError: min() arg is an empty sequence"
              | some m =>
                match (best_candidates E ml a b).get?
                    (List.indexOf m ppl) with
                | some best_seed => .ok best_seed
                | none => .error "IndexError")
        else .error ("unknown seed type: " ++ st)) = _
      rw [if_neg h1, if_neg h2, if_neg h3]
    · refine ⟨"assert len(word_pair) == 2", ?_⟩
      show (if (a :: b :: c :: rest).length = 2 then _
        else (.error "assert len(word_pair) == 2" : Except String String)) = _
      rw [if_neg (by simp)]
  · intro h t nb nbp nbs
    refine ⟨⟨_, rfl⟩, ⟨_, rfl⟩, fun hml hdiv hok => ?_⟩
    rcases pair_to_seed_best_ok E ml nb nbp nbs h t hml hdiv hok with
      ⟨s, hs, _, _⟩
    exact ⟨s, hs⟩

/-- Witness for C8 at the concrete environment. -/
theorem C8_seed_type_errors_witness :
    (∃ e, pair_to_seed toyEnv 4 ["a", "b"] 2 2 2 "bogus" = .error e)
    ∧ (∃ s, pair_to_seed toyEnv 4 ["a", "b"] 2 2 2 "middle" = .ok s)
    ∧ (∃ s, pair_to_seed toyEnv 4 ["a", "b"] 2 2 2 "whole" = .ok s)
    ∧ ∃ s, pair_to_seed toyEnv 4 ["a", "b"] 2 2 2 "best" = .ok s :=
  ⟨(C8_seed_type_errors toyEnv 4).1 ["a", "b"] 2 2 2 "bogus"
      (by decide) (by decide) (by decide),
    ((C8_seed_type_errors toyEnv 4).2 "a" "b" 2 2 2).1,
    ((C8_seed_type_errors toyEnv 4).2 "a" "b" 2 2 2).2.1,
    ((C8_seed_type_errors toyEnv 4).2 "a" "b" 2 2 2).2.2 (by omega)
      (fun x => by rw [Nat.cast_id, Nat.div_one]) (by decide)⟩

/-! ## Claim C1: termination of the fill loop -/

theorem strHasSub_iff_count {m s : String} :
    strHasSub m s = true ↔ 0 < strSubCount m s :=
  hasSubL_iff_subCountL

theorem posList_full {E : Env Q} {s : String}
    (h : ∀ i, i < (E.tokenize s).length →
      E.convertId ((E.tokenize s).getD i "") ≠ E.maskId) :
    posList E s = List.range (E.tokenize s).length := by
  unfold posList
  rw [List.filter_eq_self]
  intro i hi
  simpa using h i (List.mem_range.1 hi)

theorem count_set_maskId {inp : List Int} {p : Nat} {maskId c : Int}
    (hp : p < inp.length) (hm : inp.getD p 0 = maskId) (hc : c ≠ maskId) :
    List.count maskId (inp.set p c) = List.count maskId inp - 1 := by
  rw [getD_of_lt _ _ _ hp] at hm
  rw [List.count_set c maskId inp p hp]
  simp [hm, hc]

theorem exists_mask_pos {inp : List Int} {v : Int}
    (h : 0 < List.count v inp) :
    ∃ p, p < inp.length ∧ inp.getD p 0 = v := by
  have hm : v ∈ inp := List.count_pos_iff.1 h
  rcases List.mem_iff_getElem.1 hm with ⟨p, hp, hv⟩
  exact ⟨p, hp, by rw [getD_of_lt _ _ _ hp]; exact hv⟩

theorem decode_topk_val {E : Env Q} {hd tl : String} {inp : List Int}
    {p k : Nat} {x : String × Q} (h : decode_topk E hd tl inp p k = some x) :
    x.1 = E.dec (inp.set p (E.predId inp p k)) := by
  unfold decode_topk at h
  by_cases hc : (strHasSub hd (E.dec (inp.set p (E.predId inp p k)))
      && strHasSub tl (E.dec (inp.set p (E.predId inp p k)))) = true
  · rw [if_pos hc] at h
    cases h
    rfl
  · rw [if_neg hc] at h
    cases h

theorem rowCandidates_elem {E : Env Q} {hd tl : String} {inp : List Int}
    {tpp : Nat} {x : String × Q} (hx : x ∈ rowCandidates E hd tl inp tpp) :
    ∃ p k, p < inp.length ∧ inp.getD p 0 = E.maskId
      ∧ decode_topk E hd tl inp p k = some x := by
  unfold rowCandidates at hx
  rcases List.mem_flatMap.1 hx with ⟨p, hp, hmem⟩
  rcases List.mem_filterMap.1 hmem with ⟨k, _, hk⟩
  have hp2 := List.mem_filter.1 hp
  refine ⟨p, k, List.mem_range.1 hp2.1, by simpa using hp2.2, hk⟩

theorem rowCandidates_ne_nil {E : Env Q} {hd tl : String} {inp : List Int}
    {tpp : Nat} {p : Nat}
    (hp : p < inp.length) (hm : inp.getD p 0 = E.maskId) (htpp : 1 ≤ tpp)
    (hsurv : ∀ ids, strHasSub hd (E.dec ids) = true
      ∧ strHasSub tl (E.dec ids) = true) :
    rowCandidates E hd tl inp tpp ≠ [] := by
  intro hempty
  have hx : (E.dec (inp.set p (E.predId inp p 0)), E.predVal inp p 0)
      ∈ rowCandidates E hd tl inp tpp := by
    unfold rowCandidates
    rw [List.mem_flatMap]
    refine ⟨p, ?_, ?_⟩
    · rw [List.mem_filter]
      exact ⟨List.mem_range.2 hp, by simpa using hm⟩
    · rw [List.mem_filterMap]
      refine ⟨0, by simpa using htpp, ?_⟩
      unfold decode_topk
      rw [if_pos]
      rw [Bool.and_eq_true]
      exact ⟨(hsurv _).1, (hsurv _).2⟩
  rw [hempty] at hx
  cases hx

theorem length_insertDesc (x : String × Q) (l : List (String × Q)) :
    (insertDesc x l).length = l.length + 1 := by
  induction l with
  | nil => rfl
  | cons y ys ih =>
    unfold insertDesc
    by_cases hy : y.2 ≤ x.2
    · simp [hy]
    · simp [hy, ih]

theorem length_sortDesc (l : List (String × Q)) :
    (sortDesc l).length = l.length := by
  induction l with
  | nil => rfl
  | cons x xs ih =>
    unfold sortDesc
    rw [length_insertDesc, ih, List.length_cons]

theorem sortDesc_ne_nil {l : List (String × Q)} (h : l ≠ []) :
    sortDesc l ≠ [] := by
  intro hx
  have := length_sortDesc l
  rw [hx] at this
  simp at this
  exact h (List.length_eq_zero.1 this.symm)

theorem ppl_select_ok_of_nonempty (E : Env Q) (ml : Nat) {sent : List String}
    (hdiv : ∀ x : Q, x / ((1 : Nat) : Q) = x)
    (hok : ∀ s, ppl_ok_check E ml s = true)
    (hne : sent ≠ []) :
    ∃ b ∈ sent, ppl_select E ml false sent = .ok b := by
  haveI : Std.Antisymm (fun (a b : Q) => a ≤ b) :=
    ⟨by intro a b hab hba; exact le_antisymm hab hba⟩
  have hppl := get_perplexity_spec E ml sent hdiv (fun s _ => hok s)
  have hpplne : sent.map (claimC4_sentence_ppl E) ≠ [] := fun hx =>
    hne (List.map_eq_nil_iff.1 hx)
  cases hmin : (sent.map (claimC4_sentence_ppl E)).min? with
  | none => exact absurd (List.min?_eq_none_iff.1 hmin) hpplne
  | some m =>
    have hmin_spec := (List.min?_eq_some_iff (fun a => le_refl a)
      (fun a b => min_choice a b) (fun a b c => le_min_iff)).1 hmin
    have hidx : List.indexOf m (sent.map (claimC4_sentence_ppl E))
        < (sent.map (claimC4_sentence_ppl E)).length :=
      List.indexOf_lt_length.2 hmin_spec.1
    have hidx' : List.indexOf m (sent.map (claimC4_sentence_ppl E))
        < sent.length := by
      rw [List.length_map] at hidx
      exact hidx
    refine ⟨sent[List.indexOf m (sent.map (claimC4_sentence_ppl E))],
      List.getElem_mem hidx', ?_⟩
    unfold ppl_select
    rw [hppl]
    show (match (sent.map (claimC4_sentence_ppl E)).min? with
      | none => (Except.error "ValueError: min() arg is an empty sequence"
          : Except String String)
      | some m =>
        match sent.get? (List.indexOf m
            (sent.map (claimC4_sentence_ppl E))) with
        | some best => .ok best
        | none => .error "IndexError") = _
    rw [hmin]
    show (match sent.get? (List.indexOf m
        (sent.map (claimC4_sentence_ppl E))) with
      | some best => (.ok best : Except String String)
      | none => .error "IndexError") = _
    rw [List.get?_eq_getElem?, List.getElem?_eq_getElem hidx']

theorem ppl_ok_check_of (E : Env Q) (ml : Nat)
    (Htok_len : ∀ s : String, E.sp_len + (E.tokenize s).length ≤ ml)
    (Hvar_fit : ∀ (s : String) (i : Nat), i < (E.tokenize s).length →
      (E.enc (E.toStr ((E.tokenize s).set i E.mask))).length < ml
      ∧ i + E.sp_len
          < (E.enc (E.toStr ((E.tokenize s).set i E.mask))).length)
    (Hconv_pad : ∀ (s : String) (i : Nat),
      E.convertId ((E.tokenize s).getD i "") ≠ PAD_TOKEN_LABEL_ID)
    (Hconv_mask : ∀ (s : String) (i : Nat), i < (E.tokenize s).length →
      E.convertId ((E.tokenize s).getD i "") ≠ E.maskId)
    (Htok_ne : ∀ s : String, E.tokenize s ≠ []) :
    ∀ s, ppl_ok_check E ml s = true := by
  intro s
  unfold ppl_ok_check
  simp only [Bool.and_eq_true, List.all_eq_true, List.any_eq_true,
    decide_eq_true_eq, List.mem_range]
  have hlen : 0 < (E.tokenize s).length := List.length_pos.2 (Htok_ne s)
  exact ⟨⟨Htok_len s, fun i hi =>
      ⟨⟨(Hvar_fit s i hi).1, (Hvar_fit s i hi).2⟩, Hconv_pad s i⟩⟩,
    0, hlen, Hconv_mask s 0 hlen⟩

/-- The encoding produced by `replace_single_mask` for one sentence: one row
with the sentence's own ids when it still contains the mask token, otherwise
the token-wise masked variants. -/
def encData (E : Env Q) (s : String) : List Encode :=
  if strHasSub E.mask s then [⟨E.enc s, []⟩]
  else (posList E s).map (variantEncode E s)

theorem encode_eq_encData (E : Env Q) (ml : Nat) (s : String) (k₀ : Nat)
    (Henc_len : ∀ s' : String, strSubCount E.mask s' ≤ k₀ →
      (E.enc s').length < ml)
    (Htok_len : ∀ s' : String, E.sp_len + (E.tokenize s').length ≤ ml)
    (Hvar_fit : ∀ (s' : String) (i : Nat), i < (E.tokenize s').length →
      (E.enc (E.toStr ((E.tokenize s').set i E.mask))).length < ml
      ∧ i + E.sp_len
          < (E.enc (E.toStr ((E.tokenize s').set i E.mask))).length)
    (hcnt : strSubCount E.mask s ≤ k₀) :
    encode_plus E ml false (!strHasSub E.mask s) s = .ok (encData E s) := by
  unfold encData
  by_cases hs : strHasSub E.mask s = true
  · rw [hs]
    show encode_plus E ml false false s = .ok [⟨E.enc s, []⟩]
    unfold encode_plus
    rw [if_neg (by simp), if_pos (by simp), if_pos hs,
      if_pos (Henc_len s hcnt)]
  · have hs' : strHasSub E.mask s = false := by
      revert hs
      cases strHasSub E.mask s <;> simp
    rw [hs']
    show encode_plus E ml false true s
      = .ok ((posList E s).map (variantEncode E s))
    exact encode_plus_token_wise_eq E ml s (Htok_len s)
      (fun i hi => Hvar_fit s i hi)

theorem sum_take_le_sum (l : List Nat) (n : Nat) :
    (l.take n).sum ≤ l.sum := by
  conv_rhs => rw [← List.take_append_drop n l]
  rw [List.sum_append]
  omega


theorem process_single_sentence_eq (E : Env Q) (word_pairs : List (List String))
    (partition : List (Nat × Nat)) (total_input : List (List Int))
    (tpp topk : Nat) (n : Nat) (hd tl : String)
    (hp : word_pairs.getD n [] = [hd, tl]) :
    process_single_sentence E word_pairs partition total_input tpp topk n
      = .ok (((sortDesc (((List.range
            ((partition.getD n (0, 0)).2 - (partition.getD n (0, 0)).1)).map
            (fun j => (partition.getD n (0, 0)).1 + j)).flatMap
          (fun i => rowCandidates E hd tl (total_input.getD i []) tpp))).map
          Prod.fst).take
        (min topk (sortDesc (((List.range
            ((partition.getD n (0, 0)).2 - (partition.getD n (0, 0)).1)).map
            (fun j => (partition.getD n (0, 0)).1 + j)).flatMap
          (fun i => rowCandidates E hd tl (total_input.getD i []) tpp))).length)) := by
  unfold process_single_sentence
  rw [hp]

theorem process_spec (E : Env Q) (pairs : List (List String))
    (data : List (List Encode)) (tpp topk : Nat) (n : Nat) (hd tl : String)
    (c : Nat)
    (hn : n < pairs.length)
    (hplen : pairs.length = data.length)
    (hp : pairs.getD n [] = [hd, tl])
    (htopk : 1 ≤ topk) (htpp : 1 ≤ tpp)
    (hrow_ne : data.getD n [] ≠ [])
    (hrow_cnt : ∀ r ∈ data.getD n [], 0 < List.count E.maskId r.input_ids)
    (hcand_cnt : ∀ r ∈ data.getD n [], ∀ (p k' : Nat),
      p < r.input_ids.length → r.input_ids.getD p 0 = E.maskId →
      strSubCount E.mask
        (E.dec (r.input_ids.set p (E.predId r.input_ids p k'))) = c)
    (hsurv : ∀ ids, strHasSub hd (E.dec ids) = true
      ∧ strHasSub tl (E.dec ids) = true) :
    ∃ lst, process_single_sentence E pairs (get_partition data)
        (data.flatten.map (fun enc => enc.input_ids)) tpp topk n = .ok lst
      ∧ lst ≠ [] ∧ ∀ b ∈ lst, strSubCount E.mask b = c := by
  have hn' : n < data.length := by omega
  have hsep := get_partition_getD data n hn'
  have hsum := sum_take_len_succ data n hn'
  have hdiff : (((get_partition data).getD n (0, 0)).2
      - ((get_partition data).getD n (0, 0)).1)
      = (data.getD n []).length := by
    rw [hsep]
    simp only []
    omega
  have hstart : ((get_partition data).getD n (0, 0)).1
      = ((data.map List.length).take n).sum := by
    rw [hsep]
  have hrowid : ∀ j, j < (data.getD n []).length →
      (data.flatten.map (fun enc => enc.input_ids)).getD
          (((get_partition data).getD n (0, 0)).1 + j) []
        = ((data.getD n []).getD j ⟨[], []⟩).input_ids := by
    intro j hj
    have hbound : ((get_partition data).getD n (0, 0)).1 + j
        < data.flatten.length := by
      rw [hstart, List.length_flatten]
      have h1 := sum_take_le_sum (data.map List.length) (n + 1)
      omega
    rw [getD_map_lt _ _ _ hbound _ ⟨[], []⟩, hstart,
      flatten_getD data n j ⟨[], []⟩ hn' hj]
  have hrow0 : (data.getD n []).getD 0 ⟨[], []⟩ ∈ data.getD n [] :=
    getD_mem (List.length_pos.2 hrow_ne) _
  rw [process_single_sentence_eq E pairs (get_partition data)
    (data.flatten.map (fun enc => enc.input_ids)) tpp topk n hd tl hp]
  set T := ((List.range
      (((get_partition data).getD n (0, 0)).2
        - ((get_partition data).getD n (0, 0)).1)).map
      (fun j => ((get_partition data).getD n (0, 0)).1 + j)).flatMap
    (fun i => rowCandidates E hd tl
      ((data.flatten.map (fun enc => enc.input_ids)).getD i []) tpp) with hTdef
  have hT_ne : T ≠ [] := by
    rcases List.exists_mem_of_ne_nil _
      (rowCandidates_ne_nil
        (exists_mask_pos (hrow_cnt _ hrow0)).choose_spec.1
        (exists_mask_pos (hrow_cnt _ hrow0)).choose_spec.2 htpp hsurv)
      with ⟨x, hx⟩
    have hxT : x ∈ T := by
      rw [hTdef, List.mem_flatMap]
      refine ⟨((get_partition data).getD n (0, 0)).1 + 0, ?_, ?_⟩
      · rw [List.mem_map]
        refine ⟨0, ?_, rfl⟩
        rw [List.mem_range, hdiff]
        exact List.length_pos.2 hrow_ne
      · rw [hrowid 0 (List.length_pos.2 hrow_ne)]
        exact hx
    intro hT
    rw [hT] at hxT
    cases hxT
  refine ⟨_, rfl, ?_, ?_⟩
  · apply List.ne_nil_of_length_pos
    rw [List.length_take, List.length_map, length_sortDesc]
    have : 0 < T.length := List.length_pos.2 hT_ne
    omega
  · intro b hb
    have hb2 := List.take_subset _ _ hb
    rcases List.mem_map.1 hb2 with ⟨x, hxs, rfl⟩
    have hxT := mem_sortDesc.1 hxs
    rcases List.mem_flatMap.1 hxT with ⟨i, hi, hxr⟩
    rcases List.mem_map.1 hi with ⟨j, hj, rfl⟩
    have hj' : j < (data.getD n []).length := by
      rw [← hdiff]
      exact List.mem_range.1 hj
    rw [hrowid j hj'] at hxr
    rcases rowCandidates_elem hxr with ⟨p, k', hplt, hpm, hdt⟩
    rw [decode_topk_val hdt]
    exact hcand_cnt _ (getD_mem hj' _) p k' hplt hpm

/-- The oracle-coherence hypotheses under which the fill loop of
`replace_mask` is analysed (claim C1): the tokenizer/model oracle encodes the
mask token to the mask id and nothing else to it, decoding preserves mask
occurrences, predicted ids are never the mask id, every word pair is a real
pair whose head and tail contain no mask and survive decoding, and the
token-wise perplexity machinery is well-defined (`ppl_ok_check`-style
conditions plus the `x / 1 = x` division fact for the carrier). -/
structure C1Hyps (E : Env Q) (ml : Nat) (pairs : List (List String))
    (k₀ : Nat) : Prop where
  mask_ne : E.mask.data ≠ []
  mask_nospace : ' ' ∉ E.mask.data
  enc_len : ∀ s : String, strSubCount E.mask s ≤ k₀ → (E.enc s).length < ml
  enc_cnt : ∀ s : String,
    List.count E.maskId (E.enc s) = strSubCount E.mask s
  dec_cnt : ∀ ids : List Int,
    strSubCount E.mask (E.dec ids) = List.count E.maskId ids
  pred_ne : ∀ (ids : List Int) (p j : Nat), E.predId ids p j ≠ E.maskId
  pairs_wf : ∀ i, i < pairs.length → ∃ hd tl,
    pairs.getD i [] = [hd, tl]
    ∧ strHasSub E.mask hd = false ∧ strHasSub E.mask tl = false
    ∧ ∀ ids, strHasSub hd (E.dec ids) = true
        ∧ strHasSub tl (E.dec ids) = true
  tok_len : ∀ s : String, E.sp_len + (E.tokenize s).length ≤ ml
  var_fit : ∀ (s : String) (i : Nat), i < (E.tokenize s).length →
    (E.enc (E.toStr ((E.tokenize s).set i E.mask))).length < ml
    ∧ i + E.sp_len < (E.enc (E.toStr ((E.tokenize s).set i E.mask))).length
  conv_pad : ∀ (s : String) (i : Nat),
    E.convertId ((E.tokenize s).getD i "") ≠ PAD_TOKEN_LABEL_ID
  conv_mask : ∀ (s : String) (i : Nat), i < (E.tokenize s).length →
    E.convertId ((E.tokenize s).getD i "") ≠ E.maskId
  tok_ne : ∀ s : String, E.tokenize s ≠ []
  var_cnt : ∀ (s : String) (i : Nat), i < (E.tokenize s).length →
    strSubCount E.mask (E.toStr ((E.tokenize s).set i E.mask)) = 1
  div_one : ∀ x : Q, x / ((1 : Nat) : Q) = x

theorem replace_single_mask_eq (E : Env Q) (ml : Nat) (ic : Bool)
    (sents : List String) (pairs : List (List String)) (topk tpp : Nat)
    (pf : Bool) (data : List (List Encode))
    (hlen : sents.length = pairs.length)
    (hdata : mapEx (fun x => encode_plus E ml ic (!strHasSub E.mask x) x)
      sents = .ok data)
    (hplen : pairs.length = (get_partition data).length) :
    replace_single_mask E ml ic sents pairs topk tpp pf
      = exBind (mapEx (process_single_sentence E pairs (get_partition data)
            (data.flatten.map (fun enc => enc.input_ids)) tpp topk)
          (List.range (get_partition data).length)) (fun gf =>
        if pf then mapEx (ppl_select E ml ic) gf
        else mapEx first_select gf) := by
  unfold replace_single_mask
  rw [if_pos hlen, hdata]
  show (if pairs.length = (get_partition data).length
      then exBind (mapEx (process_single_sentence E pairs (get_partition data)
            (data.flatten.map (fun enc => enc.input_ids)) tpp topk)
          (List.range (get_partition data).length)) (fun gf =>
        if pf then mapEx (ppl_select E ml ic) gf
        else mapEx first_select gf)
      else .error "assert len(word_pairs) == len(partition)") = _
  rw [if_pos hplen]

theorem encData_ne_nil {E : Env Q} {ml : Nat} {pairs : List (List String)}
    {k₀ : Nat} (H : C1Hyps E ml pairs k₀) (s : String) :
    encData E s ≠ [] := by
  unfold encData
  by_cases hsub : strHasSub E.mask s = true
  · rw [if_pos hsub]
    exact List.cons_ne_nil _ _
  · rw [if_neg hsub]
    intro hc
    have h1 : posList E s = [] := List.map_eq_nil_iff.1 hc
    rw [posList_full (fun i hi => H.conv_mask s i hi)] at h1
    have h2 : (E.tokenize s).length = 0 := by
      have := congrArg List.length h1
      simpa using this
    exact H.tok_ne s (List.length_eq_zero.1 h2)

theorem encData_count {E : Env Q} {ml : Nat} {pairs : List (List String)}
    {k₀ : Nat} (H : C1Hyps E ml pairs k₀) (s : String) (k : Nat)
    (hs : strSubCount E.mask s = k) :
    ∀ r ∈ encData E s, 0 < List.count E.maskId r.input_ids
      ∧ List.count E.maskId r.input_ids - 1 = k - 1 := by
  intro r hr
  unfold encData at hr
  by_cases hsub : strHasSub E.mask s = true
  · rw [if_pos hsub] at hr
    have hk1 : 0 < k := by
      rw [← hs]
      exact strHasSub_iff_count.1 hsub
    rcases List.mem_singleton.1 hr with rfl
    refine ⟨?_, ?_⟩
    · show 0 < List.count E.maskId (E.enc s)
      rw [H.enc_cnt s, hs]
      exact hk1
    · show List.count E.maskId (E.enc s) - 1 = k - 1
      rw [H.enc_cnt s, hs]
  · rw [if_neg hsub] at hr
    have hc0 : strSubCount E.mask s = 0 := by
      by_contra hc
      exact hsub (strHasSub_iff_count.2 (Nat.pos_of_ne_zero hc))
    have hk0 : k = 0 := by omega
    rcases List.mem_map.1 hr with ⟨i, hi, rfl⟩
    have hi' : i < (E.tokenize s).length := by
      have := List.mem_filter.1 hi
      exact List.mem_range.1 this.1
    have hone : List.count E.maskId
        (E.enc (E.toStr ((E.tokenize s).set i E.mask))) = 1 := by
      rw [H.enc_cnt, H.var_cnt s i hi']
    refine ⟨?_, ?_⟩
    · show 0 < List.count E.maskId
        (E.enc (E.toStr ((E.tokenize s).set i E.mask)))
      omega
    · show List.count E.maskId
        (E.enc (E.toStr ((E.tokenize s).set i E.mask))) - 1 = k - 1
      omega

/-- One pass of `replace_single_mask` over sentences that all contain exactly
`k` mask occurrences succeeds and returns one sentence per word pair, each
with exactly `k - 1` mask occurrences. -/
theorem step_spec (E : Env Q) (ml : Nat) (pairs : List (List String))
    (topk tpp : Nat) (pf : Bool) (k₀ : Nat)
    (H : C1Hyps E ml pairs k₀)
    (htopk : 1 ≤ topk) (htpp : 1 ≤ tpp)
    (sents : List String) (k : Nat)
    (hlen : sents.length = pairs.length)
    (hcnt : ∀ s ∈ sents, strSubCount E.mask s = k)
    (hk : k ≤ k₀) :
    ∃ out, replace_single_mask E ml false sents pairs topk tpp pf = .ok out
      ∧ out.length = pairs.length
      ∧ ∀ s ∈ out, strSubCount E.mask s = k - 1 := by
  have hdata : mapEx
      (fun x => encode_plus E ml false (!strHasSub E.mask x) x) sents
      = .ok (sents.map (encData E)) :=
    mapEx_ok_of_fn (fun s hs =>
      encode_eq_encData E ml s k₀ H.enc_len H.tok_len H.var_fit
        (by rw [hcnt s hs]; exact hk))
  have hdlen : (sents.map (encData E)).length = sents.length :=
    List.length_map _ _
  have hplen2 : pairs.length
      = (get_partition (sents.map (encData E))).length := by
    rw [get_partition_length]
    omega
  rw [replace_single_mask_eq E ml false sents pairs topk tpp pf
    (sents.map (encData E)) hlen hdata hplen2]
  have hproc : ∀ n ∈ List.range
      (get_partition (sents.map (encData E))).length,
      ∃ lst, process_single_sentence E pairs
          (get_partition (sents.map (encData E)))
          ((sents.map (encData E)).flatten.map (fun enc => enc.input_ids))
          tpp topk n = .ok lst
        ∧ lst ≠ [] ∧ ∀ b ∈ lst, strSubCount E.mask b = k - 1 := by
    intro n hn
    have hn' : n < pairs.length := by
      rw [hplen2]
      exact List.mem_range.1 hn
    rcases H.pairs_wf n hn' with ⟨hd, tl, hp, _, _, hsurv⟩
    have hnlen : n < sents.length := by omega
    have hdn : (sents.map (encData E)).getD n []
        = encData E (sents.getD n "") :=
      getD_map_lt (encData E) sents n hnlen [] ""
    have hsmem : sents.getD n "" ∈ sents := getD_mem hnlen ""
    refine process_spec E pairs (sents.map (encData E)) tpp topk n hd tl
      (k - 1) hn' (by omega) hp htopk htpp ?_ ?_ ?_ hsurv
    · rw [hdn]
      exact encData_ne_nil H _
    · rw [hdn]
      intro r hr
      exact (encData_count H _ k (hcnt _ hsmem) r hr).1
    · rw [hdn]
      intro r hr p j hplt hpm
      rw [H.dec_cnt,
        count_set_maskId hplt hpm (H.pred_ne r.input_ids p j)]
      exact (encData_count H _ k (hcnt _ hsmem) r hr).2
  rcases mapEx_ok_of_forall (fun n hn =>
    ⟨(hproc n hn).choose, (hproc n hn).choose_spec.1⟩) with ⟨gf, hgf⟩
  have hgf_prop : ∀ sent ∈ gf, sent ≠ []
      ∧ ∀ b ∈ sent, strSubCount E.mask b = k - 1 := by
    intro sent hsent
    rcases mapEx_ok_mem hgf hsent with ⟨n, hn, hpn⟩
    rcases hproc n hn with ⟨lst, hlst, hne, hc⟩
    rw [hpn] at hlst
    cases hlst
    exact ⟨hne, hc⟩
  have hgflen : gf.length = pairs.length := by
    rw [mapEx_ok_length hgf, List.length_range]
    exact hplen2.symm
  rw [hgf]
  cases pf with
  | false =>
    have hsel : ∀ sent ∈ gf, ∃ b, first_select sent = .ok b := by
      intro sent hsent
      cases sent with
      | nil => exact absurd rfl (hgf_prop [] hsent).1
      | cons x xs => exact ⟨x, rfl⟩
    rcases mapEx_ok_of_forall hsel with ⟨out, hout⟩
    refine ⟨out, ?_, ?_, ?_⟩
    · show mapEx first_select gf = .ok out
      exact hout
    · rw [mapEx_ok_length hout]
      exact hgflen
    · intro b hb
      rcases mapEx_ok_mem hout hb with ⟨sent, hsent, hfb⟩
      exact (hgf_prop sent hsent).2 b (first_select_mem hfb)
  | true =>
    have hsel : ∀ sent ∈ gf, ∃ b, ppl_select E ml false sent = .ok b := by
      intro sent hsent
      rcases ppl_select_ok_of_nonempty E ml H.div_one
        (ppl_ok_check_of E ml H.tok_len H.var_fit H.conv_pad H.conv_mask
          H.tok_ne) (hgf_prop sent hsent).1 with ⟨b, _, hb⟩
      exact ⟨b, hb⟩
    rcases mapEx_ok_of_forall hsel with ⟨out, hout⟩
    refine ⟨out, ?_, ?_, ?_⟩
    · show mapEx (ppl_select E ml false) gf = .ok out
      exact hout
    · rw [mapEx_ok_length hout]
      exact hgflen
    · intro b hb
      rcases mapEx_ok_mem hout hb with ⟨sent, hsent, hfb⟩
      exact (hgf_prop sent hsent).2 b (ppl_select_mem hfb)

/-- The `while True` fill loop exits with mask-free sentences after exactly
`k` passes when every seed contains `k ≥ 1` masks, for any fuel `≥ k`; the
edit history gains `k - 1` entries, one per non-final pass, all of the word
pairs' length. -/
theorem fill_spec (E : Env Q) (ml : Nat) (pairs : List (List String))
    (topk tpp : Nat) (pf : Bool) (k₀ : Nat)
    (H : C1Hyps E ml pairs k₀)
    (htopk : 1 ≤ topk) (htpp : 1 ≤ tpp)
    (hpne : 0 < pairs.length) :
    ∀ (fuel k : Nat) (sents : List String) (edit : List (List String)),
      1 ≤ k → k ≤ k₀ → k ≤ fuel →
      sents.length = pairs.length →
      (∀ s ∈ sents, strSubCount E.mask s = k) →
      (∀ e ∈ edit, e.length = pairs.length) →
      ∃ out edit2,
        fill_loop E ml false pairs topk tpp pf fuel sents edit
          = .ok (out, edit2)
        ∧ out.length = pairs.length
        ∧ (∀ s ∈ out, strSubCount E.mask s = 0)
        ∧ edit2.length = edit.length + (k - 1)
        ∧ (∀ e ∈ edit2, e.length = pairs.length) := by
  intro fuel
  induction fuel with
  | zero =>
    intro k sents edit hk1 hk0 hkf
    omega
  | succ f ih =>
    intro k sents edit hk1 hk0 hkf hslen hcnt hed
    rcases step_spec E ml pairs topk tpp pf k₀ H htopk htpp sents k hslen
      hcnt hk0 with ⟨ss, hss, hsslen, hsscnt⟩
    by_cases hk : k = 1
    · subst hk
      have hall : ss.all (fun i => !strHasSub E.mask i) = true := by
        rw [List.all_eq_true]
        intro s hs
        show (!strHasSub E.mask s) = true
        have h0 : strSubCount E.mask s = 0 := by
          have := hsscnt s hs
          omega
        cases hb : strHasSub E.mask s with
        | false => rfl
        | true =>
          have := strHasSub_iff_count.1 hb
          omega
      refine ⟨ss, edit, ?_, hsslen, ?_, by omega, hed⟩
      · show exBind (replace_single_mask E ml false sents pairs topk tpp pf)
          (fun ss => if ss.all (fun i => !strHasSub E.mask i)
            then .ok (ss, edit)
            else fill_loop E ml false pairs topk tpp pf f ss
              (edit ++ [ss])) = _
        rw [hss]
        show (if ss.all (fun i => !strHasSub E.mask i)
            then (.ok (ss, edit)
              : Except String (List String × List (List String)))
            else fill_loop E ml false pairs topk tpp pf f ss
              (edit ++ [ss])) = _
        rw [hall]
        rfl
      · intro s hs
        have := hsscnt s hs
        omega
    · have hssne : ss ≠ [] := by
        intro hc
        rw [hc] at hsslen
        simp only [List.length_nil] at hsslen
        omega
      rcases List.exists_mem_of_ne_nil _ hssne with ⟨s, hs⟩
      have hall : ss.all (fun i => !strHasSub E.mask i) = false := by
        rw [List.all_eq_false]
        refine ⟨s, hs, ?_⟩
        show ¬(!strHasSub E.mask s) = true
        have hsub : strHasSub E.mask s = true := by
          apply strHasSub_iff_count.2
          have := hsscnt s hs
          omega
        rw [hsub]
        simp
      have hed2 : ∀ e ∈ edit ++ [ss], e.length = pairs.length := by
        intro e he
        rcases List.mem_append.1 he with h | h
        · exact hed e h
        · rcases List.mem_singleton.1 h with rfl
          exact hsslen
      rcases ih (k - 1) ss (edit ++ [ss]) (by omega) (by omega) (by omega)
        hsslen (fun s' hs' => hsscnt s' hs') hed2
        with ⟨out, edit2, hloop, h1, h2, h3, h4⟩
      refine ⟨out, edit2, ?_, h1, h2, ?_, h4⟩
      · show exBind (replace_single_mask E ml false sents pairs topk tpp pf)
          (fun ss => if ss.all (fun i => !strHasSub E.mask i)
            then .ok (ss, edit)
            else fill_loop E ml false pairs topk tpp pf f ss
              (edit ++ [ss])) = _
        rw [hss]
        show (if ss.all (fun i => !strHasSub E.mask i)
            then (.ok (ss, edit)
              : Except String (List String × List (List String)))
            else fill_loop E ml false pairs topk tpp pf f ss
              (edit ++ [ss])) = _
        rw [hall]
        exact hloop
      · rw [h3, List.length_append]
        simp only [List.length_cons, List.length_nil]
        omega

/-- The revision loop runs its `n` passes to completion on mask-free
sentences, growing the edit history by exactly `n` entries. -/
theorem rev_spec (E : Env Q) (ml : Nat) (pairs : List (List String))
    (topk tpp : Nat) (pf : Bool) (k₀ : Nat)
    (H : C1Hyps E ml pairs k₀)
    (htopk : 1 ≤ topk) (htpp : 1 ≤ tpp) :
    ∀ (n : Nat) (sents : List String) (edit : List (List String)),
      sents.length = pairs.length →
      (∀ s ∈ sents, strSubCount E.mask s = 0) →
      (∀ e ∈ edit, e.length = pairs.length) →
      ∃ out edit2,
        rev_loop E ml false pairs topk tpp pf n sents edit
          = .ok (out, edit2)
        ∧ out.length = pairs.length
        ∧ (∀ s ∈ out, strSubCount E.mask s = 0)
        ∧ edit2.length = edit.length + n
        ∧ (∀ e ∈ edit2, e.length = pairs.length) := by
  intro n
  induction n with
  | zero =>
    intro sents edit h1 h2 h3
    exact ⟨sents, edit, rfl, h1, h2, by omega, h3⟩
  | succ m ih =>
    intro sents edit h1 h2 h3
    rcases step_spec E ml pairs topk tpp pf k₀ H htopk htpp sents 0 h1 h2
      (Nat.zero_le _) with ⟨ss, hss, hsslen, hsscnt⟩
    have hed2 : ∀ e ∈ edit ++ [ss], e.length = pairs.length := by
      intro e he
      rcases List.mem_append.1 he with h | h
      · exact h3 e h
      · rcases List.mem_singleton.1 h with rfl
        exact hsslen
    rcases ih ss (edit ++ [ss]) hsslen
      (fun s hs => by have := hsscnt s hs; omega) hed2
      with ⟨out, edit2, hloop, g1, g2, g3, g4⟩
    refine ⟨out, edit2, ?_, g1, g2, ?_, g4⟩
    · show exBind (replace_single_mask E ml false sents pairs topk tpp pf)
        (fun ss => rev_loop E ml false pairs topk tpp pf m ss
          (edit ++ [ss])) = _
      rw [hss]
      exact hloop
    · rw [g3, List.length_append]
      simp only [List.length_cons, List.length_nil]
      omega

theorem foldl_min_eq_of_all {l : List Nat} {L : Nat}
    (hL : ∀ x ∈ l, x = L) : l.foldl min L = L := by
  induction l with
  | nil => rfl
  | cons x xs ih =>
    rw [List.foldl_cons, hL x (List.mem_cons_self x xs), min_self]
    exact ih (fun y hy => hL y (List.mem_cons_of_mem _ hy))

/-- `zip(*rows)` of a nonempty edit history whose rows all have length `L`
yields `L` groups, each of the history's length. -/
theorem zipStar_spec (rows : List (List String)) (L : Nat)
    (hne : rows ≠ []) (hall : ∀ r ∈ rows, r.length = L) :
    (zipStar rows).length = L
    ∧ ∀ e ∈ zipStar rows, e.length = rows.length := by
  cases rows with
  | nil => exact absurd rfl hne
  | cons r0 rest =>
    have hr0 : r0.length = L := hall r0 (List.mem_cons_self _ _)
    have hmin : (rest.map List.length).foldl min r0.length = L := by
      rw [hr0]
      exact foldl_min_eq_of_all (fun x hx => by
        rcases List.mem_map.1 hx with ⟨r, hr, rfl⟩
        exact hall r (List.mem_cons_of_mem _ hr))
    constructor
    · show ((List.range ((rest.map List.length).foldl min r0.length)).map
        (fun j => (r0 :: rest).map (fun row => row.getD j ""))).length = L
      rw [List.length_map, List.length_range, hmin]
    · intro e he
      have he2 : e ∈ (List.range
          ((rest.map List.length).foldl min r0.length)).map
          (fun j => (r0 :: rest).map (fun row => row.getD j "")) := he
      rcases List.mem_map.1 he2 with ⟨j, hj, rfl⟩
      rw [List.length_map]

/-- The `'middle'` seed of a pair whose head and tail are mask-free contains
exactly `n_blank` occurrences of the mask token. -/
theorem seed_count (E : Env Q) (hd tl : String) (n : Nat)
    (hmne : E.mask.data ≠ []) (hmsp : ' ' ∉ E.mask.data)
    (hhd : strHasSub E.mask hd = false)
    (htl : strHasSub E.mask tl = false) :
    strSubCount E.mask
      (String.intercalate " " ([hd] ++ List.replicate n E.mask ++ [tl]))
      = n := by
  rw [strSubCount_intercalate hmsp hmne _ (by simp)]
  rw [List.map_append, List.map_append, List.sum_append, List.sum_append]
  have h1 : ([hd].map (strSubCount E.mask)).sum = 0 := by
    simp only [List.map_cons, List.map_nil, List.sum_cons, List.sum_nil]
    have : strSubCount E.mask hd = 0 := subCountL_eq_zero_of_not_hasSub hhd
    omega
  have h2 : ([tl].map (strSubCount E.mask)).sum = 0 := by
    simp only [List.map_cons, List.map_nil, List.sum_cons, List.sum_nil]
    have : strSubCount E.mask tl = 0 := subCountL_eq_zero_of_not_hasSub htl
    omega
  have h3 : ((List.replicate n E.mask).map (strSubCount E.mask)).sum = n := by
    rw [List.map_replicate]
    have hone : strSubCount E.mask E.mask = 1 := subCountL_self hmne
    rw [hone, List.sum_replicate, smul_eq_mul, Nat.mul_one]
  omega

/-- **C1**: under the oracle-coherence hypotheses `C1Hyps` (each mask in a
sentence encodes to one mask id, decoding preserves mask counts, predicted
ids are never the mask id, word pairs are mask-free pairs surviving the
decode filter), `replace_mask` with the `'middle'` seed terminates its fill
loop for every nonempty list of word pairs: the seed template contains
exactly `n_blank` mask tokens, and for every fuel allowance of at least
`n_blank` loop iterations the loop exits with an `.ok` result in which no
sentence contains the mask token; exactly `n_revision` further revision
passes then run, so each word pair's edit history has
`n_blank + n_revision` entries. -/
theorem C1_replace_mask_fill_terminates (E : Env Q) (ml : Nat)
    (pairs : List (List String)) (fuel n_blank n_revision topk tpp : Nat)
    (pf : Bool) ( n_blank_prefix n_blank_suffix : Nat) (k₀ : Nat)
    (H : C1Hyps E ml pairs k₀)
    (htopk : 1 ≤ topk) (htpp : 1 ≤ tpp)
    (hpne : 0 < pairs.length)
    (hnb : 1 ≤ n_blank) (hnbk : n_blank ≤ k₀)
    (hfuel : n_blank ≤ fuel) :
    ∃ out edit,
      replace_mask E ml false fuel pairs n_blank n_revision topk tpp
        "middle" pf n_blank_prefix n_blank_suffix = .ok (out, edit)
      ∧ out.length = pairs.length
      ∧ (∀ s ∈ out, strHasSub E.mask s = false)
      ∧ edit.length = pairs.length
      ∧ ∀ e ∈ edit, e.length = n_blank + n_revision := by
  have hseed : mapEx (fun x => pair_to_seed E ml x n_blank n_blank_prefix
        n_blank_suffix "middle") pairs
      = .ok (pairs.map (fun x => String.intercalate " "
        ([x.getD 0 ""] ++ List.replicate n_blank E.mask
          ++ [x.getD 1 ""]))) := by
    apply mapEx_ok_of_fn
    intro a ha
    rcases List.mem_iff_getElem.1 ha with ⟨i, hi, hai⟩
    rcases H.pairs_wf i hi with ⟨hd, tl, hp, _, _, _⟩
    have hp2 : pairs[i] = [hd, tl] := by
      rw [← getD_of_lt pairs i [] hi]
      exact hp
    have ha2 : a = [hd, tl] := by
      rw [← hai]
      exact hp2
    subst ha2
    rfl
  have hseedcnt : ∀ s ∈ pairs.map (fun x => String.intercalate " "
      ([x.getD 0 ""] ++ List.replicate n_blank E.mask ++ [x.getD 1 ""])),
      strSubCount E.mask s = n_blank := by
    intro s hs
    rcases List.mem_map.1 hs with ⟨a, ha, rfl⟩
    rcases List.mem_iff_getElem.1 ha with ⟨i, hi, hai⟩
    rcases H.pairs_wf i hi with ⟨hd, tl, hp, hhd, htl, _⟩
    have hp2 : pairs[i] = [hd, tl] := by
      rw [← getD_of_lt pairs i [] hi]
      exact hp
    have ha2 : a = [hd, tl] := by
      rw [← hai]
      exact hp2
    subst ha2
    show strSubCount E.mask (String.intercalate " "
      ([hd] ++ List.replicate n_blank E.mask ++ [tl])) = n_blank
    exact seed_count E hd tl n_blank H.mask_ne H.mask_nospace hhd htl
  have hseedlen : (pairs.map (fun x => String.intercalate " "
      ([x.getD 0 ""] ++ List.replicate n_blank E.mask
        ++ [x.getD 1 ""]))).length = pairs.length := List.length_map _ _
  have hed0 : ∀ e ∈ [pairs.map (fun x => String.intercalate " "
      ([x.getD 0 ""] ++ List.replicate n_blank E.mask
        ++ [x.getD 1 ""]))], e.length = pairs.length := by
    intro e he
    rcases List.mem_singleton.1 he with rfl
    exact hseedlen
  rcases fill_spec E ml pairs topk tpp pf k₀ H htopk htpp hpne fuel n_blank
    (pairs.map (fun x => String.intercalate " "
      ([x.getD 0 ""] ++ List.replicate n_blank E.mask ++ [x.getD 1 ""])))
    [pairs.map (fun x => String.intercalate " "
      ([x.getD 0 ""] ++ List.replicate n_blank E.mask ++ [x.getD 1 ""]))]
    hnb hnbk hfuel hseedlen hseedcnt hed0
    with ⟨out1, edit1, hfill, f1, f2, f3, f4⟩
  rcases rev_spec E ml pairs topk tpp pf k₀ H htopk htpp n_revision out1
    edit1 f1 f2 f4 with ⟨out2, edit2, hrev, g1, g2, g3, g4⟩
  have hzlen : edit2.length = n_blank + n_revision := by
    rw [g3, f3]
    simp only [List.length_cons, List.length_nil]
    omega
  have hzne : edit2 ≠ [] := by
    intro hc
    rw [hc] at hzlen
    simp only [List.length_nil] at hzlen
    omega
  have hzip := zipStar_spec edit2 pairs.length hzne g4
  refine ⟨out2, zipStar edit2, ?_, g1, ?_, hzip.1, ?_⟩
  · unfold replace_mask
    rw [hseed]
    show exBind (fill_loop E ml false pairs topk tpp pf fuel
        (pairs.map (fun x => String.intercalate " "
          ([x.getD 0 ""] ++ List.replicate n_blank E.mask
            ++ [x.getD 1 ""])))
        [pairs.map (fun x => String.intercalate " "
          ([x.getD 0 ""] ++ List.replicate n_blank E.mask
            ++ [x.getD 1 ""]))])
      (fun r1 => exBind (rev_loop E ml false pairs topk tpp pf n_revision
          r1.1 r1.2)
        (fun r2 => .ok (r2.1, zipStar r2.2))) = _
    rw [hfill]
    show exBind (rev_loop E ml false pairs topk tpp pf n_revision out1 edit1)
      (fun r2 => .ok (r2.1, zipStar r2.2)) = _
    rw [hrev]
    rfl
  · intro s hs
    have h0 := g2 s hs
    cases hb : strHasSub E.mask s with
    | false => rfl
    | true =>
      have := strHasSub_iff_count.1 hb
      omega
  · intro e he
    rw [hzip.2 e he, hzlen]

theorem subCountL_singleton (a : Char) (h : List Char) :
    subCountL [a] h = h.count a := by
  induction h with
  | nil => rfl
  | cons c cs ih =>
    have hl : leadsWith [a] (c :: cs) = decide (a = c) := by
      show (decide (a = c) && leadsWith [] cs) = decide (a = c)
      show (decide (a = c) && true) = decide (a = c)
      exact Bool.and_true _
    show (if leadsWith [a] (c :: cs) = true then 1 else 0) + subCountL [a] cs
      = List.count a (c :: cs)
    rw [hl, ih, List.count_cons]
    by_cases hac : a = c
    · simp [hac]
      omega
    · simp [hac]
      exact fun h => hac h.symm

theorem toy_dec_data (ids : List Int) :
    (toyEnv.dec ids).data
      = 'a' :: ' ' :: 'b' :: ' ' :: List.replicate (ids.count 9) 'M' := by
  show ("a b " ++ String.mk (List.replicate (ids.count 9) 'M')).data = _
  rfl

theorem count_M_aux (l : List Char) :
    List.count 'M' ('a' :: ' ' :: 'b' :: ' ' :: l) = List.count 'M' l := by
  rw [List.count_cons, List.count_cons, List.count_cons, List.count_cons,
    if_neg (by decide : ¬('a' == 'M') = true),
    if_neg (by decide : ¬(' ' == 'M') = true),
    if_neg (by decide : ¬('b' == 'M') = true)]
  omega

/-- The C1 oracle-coherence hypotheses hold for the toy environment with the
word-pair list `[["a", "b"]]`, `max_length = 4` and mask-count bound `2`. -/
theorem toyC1Hyps : C1Hyps toyEnv 4 [["a", "b"]] 2 where
  mask_ne := by decide
  mask_nospace := by decide
  enc_len := by
    intro s h
    have h2 : strSubCount "M" s ≤ 2 := h
    show (List.replicate (strSubCount "M" s) (9 : Int) ++ [7]).length < 4
    simp only [List.length_append, List.length_replicate, List.length_cons,
      List.length_nil]
    omega
  enc_cnt := by
    intro s
    show List.count 9 (List.replicate (strSubCount "M" s) 9 ++ [7])
      = strSubCount "M" s
    rw [List.count_append, List.count_replicate_self, List.count_cons,
      List.count_nil, if_neg (by decide : ¬((7 : Int) == 9) = true)]
    omega
  dec_cnt := by
    intro ids
    show subCountL "M".data (toyEnv.dec ids).data = List.count 9 ids
    rw [toy_dec_data]
    show subCountL ['M'] ('a' :: ' ' :: 'b' :: ' '
      :: List.replicate (ids.count 9) 'M') = List.count 9 ids
    rw [subCountL_singleton, count_M_aux, List.count_replicate_self]
  pred_ne := by
    intro ids p j
    show (7 : Int) ≠ 9
    decide
  pairs_wf := by
    intro i hi
    have h0 : i = 0 := by
      have h1 : ([["a", "b"]] : List (List String)).length = 1 := rfl
      omega
    subst h0
    refine ⟨"a", "b", rfl, by decide, by decide, ?_⟩
    intro ids
    constructor
    · show hasSubL "a".data (toyEnv.dec ids).data = true
      rw [toy_dec_data]
      exact hasSubL_of_leadsWith (by simp [leadsWith])
    · show hasSubL "b".data (toyEnv.dec ids).data = true
      rw [toy_dec_data]
      show hasSubL ['b'] (['a', ' ']
        ++ ('b' :: ' ' :: List.replicate (ids.count 9) 'M')) = true
      exact hasSubL_append_right _
        (hasSubL_of_leadsWith (by simp [leadsWith]))
  tok_len := by
    intro s
    show (0 : Nat) + 1 ≤ 4
    decide
  var_fit := by
    intro s i hi
    have h0 : i = 0 := by
      have h1 : (toyEnv.tokenize s).length = 1 := rfl
      omega
    subst h0
    constructor
    · show (toyEnv.enc "M").length < 4
      decide
    · show 0 + toyEnv.sp_len < (toyEnv.enc "M").length
      decide
  conv_pad := by
    intro s i
    show (if ((toyEnv.tokenize s).getD i "") = "M" then (9 : Int) else 7)
      ≠ PAD_TOKEN_LABEL_ID
    split
    · decide
    · decide
  conv_mask := by
    intro s i hi
    have h0 : i = 0 := by
      have h1 : (toyEnv.tokenize s).length = 1 := rfl
      omega
    subst h0
    show toyEnv.convertId "w" ≠ toyEnv.maskId
    decide
  tok_ne := by
    intro s
    exact List.cons_ne_nil "w" []
  var_cnt := by
    intro s i hi
    have h0 : i = 0 := by
      have h1 : (toyEnv.tokenize s).length = 1 := rfl
      omega
    subst h0
    show strSubCount "M" "M" = 1
    decide
  div_one := by
    intro x
    rw [Nat.cast_id, Nat.div_one]

/-- Witness for C1 at the toy oracle: two middle blanks, fuel 2, one
revision pass; the loop exits with a mask-free sentence and a 3-entry edit
history for the single pair. -/
theorem C1_replace_mask_fill_terminates_witness :
    ∃ out edit,
      replace_mask toyEnv 4 false 2 [["a", "b"]] 2 1 1 1 "middle" true 0 0
        = .ok (out, edit)
      ∧ out.length = 1
      ∧ (∀ s ∈ out, strHasSub toyEnv.mask s = false)
      ∧ edit.length = 1
      ∧ ∀ e ∈ edit, e.length = 3 :=
  C1_replace_mask_fill_terminates toyEnv 4 [["a", "b"]] 2 2 1 1 1 true 0 0 2
    toyC1Hyps (by decide) (by decide) (by decide) (by decide) (by decide)
    (by decide)
